import Mathlib

/-!
Verification development for the resolution-and-caching engine of the
`godoc` library (package `go.dw1.io/godoc`).

The Go source is shallowly embedded: pure Go functions become Lean
functions over `String` / `List`; the global mutable cache becomes an
explicit map value threaded through the functions; machine `uint64`
arithmetic (the FNV-1a cache-key hash) is modelled as `Nat` arithmetic
taken modulo `2 ^ 64`.  Collaborators that the spec declares out of
scope (the `go/doc` front-end, the `go/doc/comment` parser and HTML
printer, the external `go` toolchain, the bounded TTL cache library)
are modelled as black boxes: oracle parameters or pre-extracted fields
of the input model.  Each definition carries a comment naming the Go
source function it embeds.
-/

namespace Godoc

/-! ## String helpers

Go string primitives (`strings.TrimSpace`, `strings.Contains`,
`strings.HasPrefix`, `strings.Join`, `strings.Index`) are embedded as
executable functions over the character list of a `String`.  Go
`unicode.IsSpace` is approximated by `Char.isWhitespace` (the inputs
relevant to the claims are ASCII).  Go string ordering is byte-wise
lexicographic, which for UTF-8 agrees with the codepoint-wise
lexicographic order used by Lean `String` ordering. -/

/-- Embeds `strings.TrimSpace`: drop whitespace from both ends. -/
def trimChars (l : List Char) : List Char :=
  ((l.dropWhile Char.isWhitespace).reverse.dropWhile Char.isWhitespace).reverse

/-- Embeds `strings.TrimSpace` on a `String`. -/
def strTrim (s : String) : String := ⟨trimChars s.data⟩

/-- Embeds `strings.Contains s pat` (substring containment). -/
def strContains (s pat : String) : Bool := decide (List.IsInfix pat.data s.data)

/-- Embeds `strings.HasPrefix s pat`. -/
def strHasPrefix (s pat : String) : Bool := pat.data.isPrefixOf s.data

/-- Embeds `strings.Join parts ","` (used on const/var name groups). -/
def strJoin (sep : String) : List String → String
  | [] => ""
  | [x] => x
  | x :: y :: xs => x ++ sep ++ strJoin sep (y :: xs)

/-- First path component: the text before the first '/' of the import
path, or the whole path when it has no '/'.  Embeds the
`strings.Index(importPath, "/")` prefix slice in `isRemoteImportPath`
(`utils.go`). -/
def firstPathComponent (l : List Char) : List Char :=
  match l.findIdx? (fun c => c = '/') with
  | some idx => l.take idx
  | none => l

/-! ## The selector regular expression

`utils.go` validates a non-empty symbol against the anchored regular
expression `[a-zA-Z_][a-zA-Z0-9_]*(\.[a-zA-Z_][a-zA-Z0-9_]*)*` (the
package variable `selectorRegex`).  The matcher below is a direct
recursive implementation of that anchored regular expression over the
character list. -/

/-- A character that may start an identifier: `[a-zA-Z_]`
(`Char.isAlpha` is ASCII-only, matching the regex class). -/
def isIdentStart (c : Char) : Bool := c.isAlpha || c = '_'

/-- A character that may continue an identifier: `[a-zA-Z0-9_]`. -/
def isIdentChar (c : Char) : Bool := c.isAlphanum || c = '_'

/-- After an initial identifier-start character has been consumed:
match `[a-zA-Z0-9_]*(\.[a-zA-Z_][a-zA-Z0-9_]*)*`. -/
def matchSelRest : List Char → Bool
  | [] => true
  | '.' :: [] => false
  | '.' :: c :: cs => isIdentStart c && matchSelRest cs
  | c :: cs => isIdentChar c && matchSelRest cs

/-- Anchored match of the whole `selectorRegex`. -/
def matchSelector : List Char → Bool
  | [] => false
  | c :: cs => isIdentStart c && matchSelRest cs

/-- Embeds `selectorRegex.MatchString` on a `String`. -/
def selectorRegexMatch (s : String) : Bool := matchSelector s.data

/-! ## Errors

`errors.go` sentinel errors together with the dynamic errors produced
along the load path. -/

/-- The errors observable from the embedded load pipeline. -/
inductive GodocErr
  /-- `ErrEmptyImportPath`. -/
  | emptyImportPath
  /-- `ErrInvalidImportPath`, wrapped with a reason. -/
  | invalidImportPath (reason : String)
  /-- `ErrInvalidSelector`, wrapped with the offending symbol. -/
  | invalidSelector (sel : String)
  /-- a failure of the build pipeline (`buildDoc`), opaque message. -/
  | buildFailed (msg : String)
  /-- symbol not found in an otherwise successfully extracted unit. -/
  | symbolNotFound (sym pkg : String)
  /-- cache persistence permission error (wraps `fs.ErrPermission`). -/
  | persistPermission
  /-- any other cache snapshot write failure. -/
  | persistFailed (msg : String)
deriving DecidableEq, Repr

/-- Classifies the input-validation errors of the error taxonomy. -/
def GodocErr.isInputErr : GodocErr → Bool
  | .emptyImportPath => true
  | .invalidImportPath _ => true
  | .invalidSelector _ => true
  | _ => false

/-! ## Input validation (`utils.go`, `validateInputs`) -/

/-- Embeds `validateInputs` from `utils.go`: empty (after trimming)
paths that are empty, paths containing ".." and paths starting with "/" are
rejected; a non-empty symbol must match `selectorRegex`.  Returns
`some e` for the first failing check, `none` when validation passes. -/
def validateInputs (importPath sel : String) : Option GodocErr :=
  if strTrim importPath = "" then some .emptyImportPath
  else if strContains importPath ".." then some (.invalidImportPath "cannot contain dotdot")
  else if strHasPrefix importPath "/" then some (.invalidImportPath "cannot start with slash")
  else if sel ≠ "" && !selectorRegexMatch sel then some (.invalidSelector sel)
  else none

/-! ## Version classification (`utils.go`) -/

/-- Embeds `isRemoteImportPath`: an import path other than "." is
remote exactly when its first path component (before the first '/')
contains a '.' (a domain-like component). -/
def isRemoteImportPath (importPath : String) : Bool :=
  if importPath = "." then false
  else (firstPathComponent importPath.data).contains '.'

/-- Embeds `getPkgVersion`: the `expectedVersion` entering the cache
fingerprint.  `rt` stands for `runtime.Version()`, the running
toolchain version string. -/
def getPkgVersion (rt importPath version : String) : String :=
  if importPath = "." then ""
  else if !isRemoteImportPath importPath then rt
  else strTrim version

/-! ## Cache keys (`cache.go`, `getCacheKey`)

The fingerprint is the 64-bit FNV-1a hash of the three components
separated by a single zero byte, rendered as lowercase hex with no
padding (Go `fmt.Sprintf("%x", hash.Sum64())`).  The hash runs over
the UTF-8 bytes of the strings; bytes are modelled as `Nat` values
below 256 and the `uint64` state as a `Nat` reduced modulo `2 ^ 64`. -/

/-- Standard UTF-8 encoding of one character, as a list of byte values. -/
def utf8Enc (c : Char) : List Nat :=
  let n := c.toNat
  if n < 0x80 then [n]
  else if n < 0x800 then
    [0xC0 ||| (n >>> 6), 0x80 ||| (n &&& 0x3F)]
  else if n < 0x10000 then
    [0xE0 ||| (n >>> 12), 0x80 ||| ((n >>> 6) &&& 0x3F), 0x80 ||| (n &&& 0x3F)]
  else
    [0xF0 ||| (n >>> 18), 0x80 ||| ((n >>> 12) &&& 0x3F),
     0x80 ||| ((n >>> 6) &&& 0x3F), 0x80 ||| (n &&& 0x3F)]

/-- UTF-8 bytes of a string (what `hash.Write([]byte(s))` consumes). -/
def strBytes (s : String) : List Nat := s.data.flatMap utf8Enc

/-- The FNV-1a 64-bit offset basis. -/
def fnvOffsetBasis : Nat := 0xcbf29ce484222325

/-- The FNV-1a 64-bit prime. -/
def fnvPrime : Nat := 0x100000001b3

/-- One FNV-1a step: xor in the byte, multiply by the prime, modulo
`2 ^ 64` (the `uint64` overflow of `hash/fnv`). -/
def fnv64aStep (h b : Nat) : Nat := ((h ^^^ b) * fnvPrime) % (2 ^ 64)

/-- FNV-1a over a byte sequence. -/
def fnv64a (bs : List Nat) : Nat := bs.foldl fnv64aStep fnvOffsetBasis

/-- Lowercase hex rendering with no padding (`fmt.Sprintf("%x", n)`). -/
def natToHex (n : Nat) : String := ⟨Nat.toDigits 16 n⟩

/-- Embeds `getCacheKey` from `cache.go`: FNV-1a of
`importPath 0x00 version 0x00 sel`, rendered as hex. -/
def getCacheKey (importPath version sel : String) : String :=
  natToHex (fnv64a (strBytes importPath ++ [0] ++ strBytes version ++ [0] ++ strBytes sel))

/-! ## The documentation model (`godoc.go` / `doc_builder.go` era)

Value-object structures mirroring the Go structs.  `comment.Doc` (the
parsed doc comment of the `go/doc/comment` front-end) is opaque to the
engine; it is modelled as a wrapper around the source text, and the
comment parser / HTML printer are passed as oracle functions where the
code uses them. -/

/-- Model of the opaque parsed doc comment `*comment.Doc`. -/
structure CommentDoc where
  text : String
deriving DecidableEq, Repr

/-- Model of Go `ArgInfo`: one function/method argument or result.  The Go field
`Type` is spelled `TypeStr` (`Type` is a Lean keyword). -/
structure ArgInfo where
  Name : String
  TypeStr : String
deriving DecidableEq, Repr

/-- Model of Go `FuncDoc`: documentation for a function. -/
structure FuncDoc where
  Name : String
  Args : List ArgInfo
  Returns : List ArgInfo
  Doc : String
deriving DecidableEq, Repr

/-- Model of Go `ValueDoc`: documentation for a constant or variable group. -/
structure ValueDoc where
  Names : List String
  Doc : String
deriving DecidableEq, Repr

/-- Model of Go `MethodDoc`: documentation for a method. -/
structure MethodDoc where
  Recv : String
  RecvName : String
  RecvType : String
  Name : String
  Args : List ArgInfo
  Returns : List ArgInfo
  Doc : String
deriving DecidableEq, Repr

/-- Model of Go `FieldDoc`: documentation for a struct field (`Type` spelled
`TypeStr`). -/
structure FieldDoc where
  Name : String
  TypeStr : String
  Doc : String
  Tag : String
  Embedded : Bool
deriving DecidableEq, Repr

/-- Model of Go `TypeDoc`: documentation for a type. -/
structure TypeDoc where
  Name : String
  Doc : String
  Decl : String
  Kind : String
  Fields : List FieldDoc
  Methods : List MethodDoc
deriving DecidableEq, Repr

/-- Model of Go `PackageDoc`: documentation for a package. -/
structure PackageDoc where
  ImportPath : String
  Name : String
  Synopsis : String
  DocText : String
  DocHTML : String
  Consts : List ValueDoc
  Vars : List ValueDoc
  Funcs : List FuncDoc
  Types : List TypeDoc
deriving DecidableEq, Repr

/-- Model of Go `SymbolDoc`: documentation for one symbol.  The unexported
`docParsed` pointer becomes an `Option CommentDoc`; the embedded
`*FuncDoc` / `*TypeDoc` pointers become `Option` fields. -/
structure SymbolDoc where
  ImportPath : String
  Package : String
  Kind : String
  Name : String
  Receiver : String
  ReceiverName : String
  ReceiverType : String
  FuncDocPart : Option FuncDoc
  TypeDocPart : Option TypeDoc
  DocText : String
  DocHTML : String
  docParsed : Option CommentDoc
deriving DecidableEq, Repr

/-! ## The cache store (`cache.go`)

`fastcache.Cache[string, cacheEntry]` is an external bounded TTL
cache.  Its `GetIfPresent` view (present and non-expired entries) is
modelled as a finite map `String → Option cacheEntry`; capacity
eviction and TTL expiry of the external library are outside the
engine and are not modelled — a claim hypothesis of the form
`cache k = some e` reads "the key holds a present, non-expired
entry". -/

/-- Model of Go `cacheMetadata`: provenance recorded with an entry. -/
structure cacheMetadata where
  GoVersion : String
  ModuleVersion : String
deriving DecidableEq, Repr

/-- Model of Go `cacheEntry`: a cached documentation entry (`cacheMetadata` is an
embedded struct in Go; here a named field `meta`). -/
structure cacheEntry where
  Package : Option PackageDoc
  Symbol : Option SymbolDoc
  meta : cacheMetadata
deriving DecidableEq, Repr

/-- The `GetIfPresent` view of the in-memory cache. -/
def CacheMap : Type := String → Option cacheEntry

/-- Embeds `cache.Set key entry`: point update of the map view. -/
def cacheSet (c : CacheMap) (key : String) (e : cacheEntry) : CacheMap :=
  fun k => if k = key then some e else c k

/-- The empty cache (every lookup misses). -/
def emptyCache : CacheMap := fun _ => none

/-- Outcome of `cache.SaveToFile` (the snapshot write), classified the
way `setCacheEntry` classifies it: a permission-flavored failure
(`errors.Is(err, fs.ErrPermission)`, `os.IsPermission` or a message
containing "permission denied") versus any other failure. -/
inductive SaveOutcome
  | ok
  | permissionErr
  | otherErr (msg : String)
deriving DecidableEq, Repr

/-- Embeds `setCacheEntry` from `cache.go`.  All non-empty keys are
set in the in-memory map first; then, if persistence is active
(`cachePersistent` and a non-empty `cacheFilePath`), the snapshot
write runs and its failure is returned as the error — without rolling
back the in-memory mutations.  The snapshot write itself is the
external collaborator `cache.SaveToFile`, supplied as `save`. -/
def setCacheEntry (persistent : Bool) (filePath : String) (save : SaveOutcome)
    (c : CacheMap) (entry : cacheEntry) (keys : List String) :
    CacheMap × Option GodocErr :=
  let c2 := keys.foldl (fun acc k => if k = "" then acc else cacheSet acc k entry) c
  if !persistent || filePath = "" then (c2, none)
  else
    match save with
    | .ok => (c2, none)
    | .permissionErr => (c2, some .persistPermission)
    | .otherErr m => (c2, some (.persistFailed m))

/-- Embeds `uniqKeys` from `cache.go`: drop empty keys and keep the
first occurrence of each key, preserving order, via a `seen` set
(modelled as the list of keys already kept). -/
def uniqKeys (keys : List String) : List String :=
  (keys.foldl
    (fun (acc : List String × List String) key =>
      if key = "" then acc
      else if key ∈ acc.2 then acc
      else (acc.1 ++ [key], key :: acc.2))
    ([], [])).1

/-- Embeds `deriveCacheMetadata` from `cache.go`.  `rt` stands for
`runtime.Version()`; `module` is the `*packages.Module` reported by
the front-end. -/
structure GoModule where
  Path : String
  Version : String
  Main : Bool
deriving DecidableEq, Repr

/-- Embeds `deriveCacheMetadata(module, resolvedVersion)` (the Go function
binds `resolved := strings.TrimSpace(resolvedVersion)` once; the trim
is inlined here). -/
def deriveCacheMetadata (rt : String) : Option GoModule → String → cacheMetadata
  | none, _ => { GoVersion := rt, ModuleVersion := "" }
  | some m, resolvedVersion =>
    if m.Path = "" then { GoVersion := rt, ModuleVersion := "" }
    else if !m.Main then
      { GoVersion := "",
        ModuleVersion :=
          if strTrim m.Version = "" then strTrim resolvedVersion
          else strTrim m.Version }
    else if strTrim resolvedVersion ≠ "" then
      { GoVersion := "", ModuleVersion := strTrim resolvedVersion }
    else { GoVersion := "", ModuleVersion := "" }

/-! ## Metadata shaping inside `buildDoc` (`godoc.go`)

Both success branches of `buildDoc` derive the cache metadata and then
apply the same remote-unit adjustment (lines 338-348 and 377-386 of
`godoc.go`): for a remote import path, an empty `ModuleVersion` is
backfilled from the non-empty resolved/requested version, and whenever
a concrete `ModuleVersion` is known the `GoVersion` provenance is
cleared. -/

/-- The remote-unit metadata adjustment of `buildDoc`. -/
def remoteMetaAdjust (importPath resolved : String) (meta : cacheMetadata) :
    cacheMetadata :=
  if isRemoteImportPath importPath then
    let m :=
      if meta.ModuleVersion = "" && strTrim resolved ≠ "" then
        { meta with ModuleVersion := strTrim resolved }
      else meta
    if strTrim m.ModuleVersion ≠ "" then { m with GoVersion := "" } else m
  else meta

/-- The full metadata pipeline of a `buildDoc` success branch:
`deriveCacheMetadata` followed by the remote adjustment, with
`resolved` the branch version string (`trimmedVersion` in the first
branch, `actualVersion` in the second). -/
def buildDocMeta (rt : String) (module : Option GoModule)
    (importPath resolved : String) : cacheMetadata :=
  remoteMetaAdjust importPath resolved (deriveCacheMetadata rt module resolved)

/-! ## The load orchestrator (`godoc.go`)

`buildDoc` drives the front-end and the toolchain; its outcome for the
fixed arguments of one call is supplied as an oracle value `build` of
type `Except String BuildOut` (the spec treats the front-end and the
toolchain as out-of-scope collaborators).  The persistence oracle
(`persistent`, `filePath`, `save`) is threaded to `setCacheEntry`. -/

/-- The data a successful `buildDoc` call returns: the package doc,
the symbol index (when requested), the resolved canonical unit path,
the resolved concrete version, and the cache metadata. -/
structure BuildOut where
  pkgDoc : PackageDoc
  symbols : List (String × SymbolDoc)
  pkgPath : String
  actualVersion : String
  meta : cacheMetadata
deriving DecidableEq, Repr

/-- The fingerprint list `getOrLoadPkg` passes to `setCacheEntry`
(lines 253-256): `uniqKeys` of the requested key and the
version-agnostic key, then — when a concrete version was resolved —
the version-specific key appended after the de-duplication. -/
def pkgWriteKeys (importPath expected actualVersion : String) : List String :=
  let key := getCacheKey importPath expected ""
  let keys := uniqKeys [key, getCacheKey importPath "" ""]
  if actualVersion ≠ "" then keys ++ [getCacheKey importPath actualVersion ""]
  else keys

/-- The analogous fingerprint list of `getOrLoadSymbol` (lines
305-308). -/
def symWriteKeys (importPath expected actualVersion trimmedSymbol : String) :
    List String :=
  let key := getCacheKey importPath expected trimmedSymbol
  let keys := uniqKeys [key, getCacheKey importPath "" trimmedSymbol]
  if actualVersion ≠ "" then
    keys ++ [getCacheKey importPath actualVersion trimmedSymbol]
  else keys

/-- The miss path of `getOrLoadPkg` (lines 243-262): run `buildDoc`,
build the entry, write it under the alias keys, propagate a
persistence error, otherwise return the fresh doc and path. -/
def pkgMissRebuild (persistent : Bool) (filePath : String) (save : SaveOutcome)
    (build : Except String BuildOut) (c : CacheMap)
    (importPath expected : String) :
    (Except GodocErr (PackageDoc × String)) × CacheMap :=
  match build with
  | .error e => (.error (.buildFailed e), c)
  | .ok b =>
    ((match (setCacheEntry persistent filePath save c
        { Package := some b.pkgDoc, Symbol := none, meta := b.meta }
        (pkgWriteKeys importPath expected b.actualVersion)).2 with
      | some e => Except.error e
      | none => Except.ok (b.pkgDoc, b.pkgPath)),
     (setCacheEntry persistent filePath save c
        { Package := some b.pkgDoc, Symbol := none, meta := b.meta }
        (pkgWriteKeys importPath expected b.actualVersion)).1)

/-- The hit test of `getOrLoadPkg` (lines 229-241): a present entry
is served only when it has a package payload and is fresh — the unit
is remote, or the recorded `GoVersion` matches the running toolchain
version. -/
def pkgCacheHit (rt importPath : String) : Option cacheEntry → Option PackageDoc
  | some ⟨some p, _, m⟩ =>
    if isRemoteImportPath importPath then some p
    else if m.GoVersion = rt then some p
    else none
  | _ => none

/-- Embeds `getOrLoadPkg` (lines 220-263): compute the expected
version and fingerprint, accept a fresh cached entry, and otherwise
fall through to the rebuild path. -/
def getOrLoadPkg (rt : String) (persistent : Bool) (filePath : String)
    (save : SaveOutcome) (build : Except String BuildOut) (c : CacheMap)
    (importPath version : String) :
    (Except GodocErr (PackageDoc × String)) × CacheMap :=
  match pkgCacheHit rt importPath
      (c (getCacheKey importPath (getPkgVersion rt importPath version) "")) with
  | some p => (.ok (p, p.ImportPath), c)
  | none =>
    pkgMissRebuild persistent filePath save build c importPath
      (getPkgVersion rt importPath version)

/-- The miss path of `getOrLoadSymbol` (lines 290-314): run
`buildDoc` with the symbol index requested, look the trimmed symbol
up, fail with a not-found error when absent, write the entry under
the alias keys. -/
def symMissRebuild (persistent : Bool) (filePath : String) (save : SaveOutcome)
    (build : Except String BuildOut) (c : CacheMap)
    (importPath expected trimmedSymbol symbol : String) :
    (Except GodocErr (SymbolDoc × String)) × CacheMap :=
  match build with
  | .error e => (.error (.buildFailed e), c)
  | .ok b =>
    match b.symbols.lookup trimmedSymbol with
    | none => (.error (.symbolNotFound symbol b.pkgPath), c)
    | some symDoc =>
      ((match (setCacheEntry persistent filePath save c
          { Package := none, Symbol := some symDoc, meta := b.meta }
          (symWriteKeys importPath expected b.actualVersion
            trimmedSymbol)).2 with
        | some e => Except.error e
        | none => Except.ok (symDoc, b.pkgPath)),
       (setCacheEntry persistent filePath save c
          { Package := none, Symbol := some symDoc, meta := b.meta }
          (symWriteKeys importPath expected b.actualVersion
            trimmedSymbol)).1)

/-- The hit test of `getOrLoadSymbol` (lines 276-288): symmetric to
`pkgCacheHit` with the symbol payload. -/
def symCacheHit (rt importPath : String) : Option cacheEntry → Option SymbolDoc
  | some ⟨_, some s, m⟩ =>
    if isRemoteImportPath importPath then some s
    else if m.GoVersion = rt then some s
    else none
  | _ => none

/-- Embeds `getOrLoadSymbol` (lines 266-315). -/
def getOrLoadSymbol (rt : String) (persistent : Bool) (filePath : String)
    (save : SaveOutcome) (build : Except String BuildOut) (c : CacheMap)
    (importPath symbol version : String) :
    (Except GodocErr (SymbolDoc × String)) × CacheMap :=
  match symCacheHit rt importPath
      (c (getCacheKey importPath (getPkgVersion rt importPath version)
        (strTrim symbol))) with
  | some s => (.ok (s, s.ImportPath), c)
  | none =>
    symMissRebuild persistent filePath save build c importPath
      (getPkgVersion rt importPath version) (strTrim symbol) symbol

/-- The two result shapes of `Load`. -/
inductive LoadResult
  | pkg (p : PackageDoc)
  | sym (s : SymbolDoc)
deriving DecidableEq, Repr

/-- Embeds `Load` (lines 190-217): validate, trim the symbol, then
either the package path or the symbol path, backfilling an empty
`ImportPath` of a cached symbol doc from the resolved unit path. -/
def Load (rt : String) (persistent : Bool) (filePath : String)
    (save : SaveOutcome) (build : Except String BuildOut) (c : CacheMap)
    (importPath symbol version : String) :
    (Except GodocErr LoadResult) × CacheMap :=
  match validateInputs importPath symbol with
  | some e => (.error e, c)
  | none =>
    let symbolT := strTrim symbol
    if symbolT = "" then
      let out := getOrLoadPkg rt persistent filePath save build c importPath version
      match out.1 with
      | .error e => (.error e, out.2)
      | .ok (pkgDoc, _) => (.ok (.pkg pkgDoc), out.2)
    else
      let out := getOrLoadSymbol rt persistent filePath save build c
        importPath symbolT version
      match out.1 with
      | .error e => (.error e, out.2)
      | .ok (symDoc, pkgPath) =>
        let symDoc :=
          if symDoc.ImportPath = "" then { symDoc with ImportPath := pkgPath }
          else symDoc
        (.ok (.sym symDoc), out.2)

/-! ## Tree extraction (`doc_builder.go`, `signature.go`)

The front-end (`go/doc`, `go/ast`, `go/types`) is the out-of-scope
collaborator that supplies declarations; the extraction helpers that
walk syntax trees (`extractArgs`, `extractResults`,
`methodReceiverInfo`, `interfaceMethodDocs`, `structFieldDocs`,
`typeDecl`) are therefore modelled as pre-extracted fields of the
input structures below, while the in-scope folding logic of
`toTypeDoc`, `toPkgDoc`, `buildSymbolIndex` and `makeSymbolDoc` is
embedded faithfully.  Go `sort.Slice` guarantees a sorted permutation
(it is not stable); it is modelled by `List.mergeSort`, and every
proof below uses only the sortedness and permutation properties that
`sort.Slice` also guarantees. -/

/-- Model of `*doc.Value` (a const or var declaration group). -/
structure DocValueSrc where
  Names : List String
  Doc : String
deriving DecidableEq, Repr

/-- Model of `*doc.Func` together with its front-end extraction
results (`extractArgs` / `extractResults`). -/
structure DocFuncSrc where
  Name : String
  Doc : String
  Args : List ArgInfo
  Returns : List ArgInfo
deriving DecidableEq, Repr

/-- Model of a directly declared method (`t.Methods` entry) together
with its `methodReceiverInfo` and argument extraction results. -/
structure DirectMethodSrc where
  Name : String
  Doc : String
  RecvName : String
  RecvType : String
  Args : List ArgInfo
  Returns : List ArgInfo
deriving DecidableEq, Repr

/-- Model of `*doc.Type` together with its front-end extraction
results: `Promoted` is the `interfaceMethodDocs` output (the complete
promoted method set of an interface), `Fields` the `structFieldDocs`
output and `DeclKind` / `DeclStr` the `typeDecl` output. -/
structure DocTypeSrc where
  Name : String
  Doc : String
  Methods : List DirectMethodSrc
  Promoted : List MethodDoc
  Funcs : List DocFuncSrc
  Consts : List DocValueSrc
  Vars : List DocValueSrc
  DeclKind : String
  DeclStr : String
  Fields : List FieldDoc
deriving DecidableEq, Repr

/-- Model of `*doc.Package` (with `Synopsis` as the front-end derived
first sentence). -/
structure DocPackageSrc where
  Name : String
  Doc : String
  Synopsis : String
  Consts : List DocValueSrc
  Vars : List DocValueSrc
  Funcs : List DocFuncSrc
  Types : List DocTypeSrc
deriving DecidableEq, Repr

/-- Embeds `strings.TrimPrefix` (drop one occurrence when present). -/
def strTrimPre (s pat : String) : String :=
  if pat.data.isPrefixOf s.data then ⟨s.data.drop pat.data.length⟩ else s

/-- Embeds `strings.TrimSuffix`. -/
def strTrimSuf (s pat : String) : String :=
  if pat.data.isSuffixOf s.data then ⟨s.data.take (s.data.length - pat.data.length)⟩
  else s

/-- Text after the last occurrence of `c`, or the whole list when `c`
is absent (the `strings.LastIndex` slices of `receiverDisplayName`). -/
def afterLastChar (l : List Char) (c : Char) : List Char :=
  ((l.reverse.takeWhile (fun x => x ≠ c)).reverse)

/-- Embeds `receiverDisplayName` from `signature.go`: strip a pointer
star, surrounding parentheses, and package-path / package-name
qualifiers. -/
def receiverDisplayName (recvType : String) : String :=
  if recvType = "" then ""
  else
    let r1 := strTrimPre recvType "*"
    let r2 := strTrimPre r1 "("
    let r3 := strTrimSuf r2 ")"
    let r4 := afterLastChar r3.data '/'
    ⟨afterLastChar r4 '.'⟩

/-- The `MethodDoc` list built from the directly declared methods in
`toTypeDoc` (the first loop over `t.Methods`). -/
def directMethods (t : DocTypeSrc) : List MethodDoc :=
  t.Methods.map (fun m =>
    { Recv := t.Name, RecvName := m.RecvName,
      RecvType := if m.RecvType = "" then t.Name else m.RecvType,
      Name := m.Name, Args := m.Args, Returns := m.Returns, Doc := m.Doc })

/-- The promoted-method merge of `toTypeDoc`: walk the promoted set,
appending only methods whose name was not seen yet; the `seen` set is
seeded with the directly declared names. -/
def mergePromoted (direct promoted : List MethodDoc) : List MethodDoc :=
  (promoted.foldl
    (fun (acc : List MethodDoc × List String) m =>
      if m.Name ∈ acc.2 then acc else (acc.1 ++ [m], m.Name :: acc.2))
    (direct, direct.map MethodDoc.Name)).1

/-- The `sort.Slice` on methods by name, modelled as a sort. -/
def sortMethodDocs (ms : List MethodDoc) : List MethodDoc :=
  ms.mergeSort (fun a b => decide (a.Name ≤ b.Name))

/-- Embeds `toTypeDoc` from `doc_builder.go`. -/
def toTypeDoc (t : DocTypeSrc) : TypeDoc :=
  { Name := t.Name, Doc := t.Doc, Decl := t.DeclStr, Kind := t.DeclKind,
    Fields := t.Fields,
    Methods := sortMethodDocs (mergePromoted (directMethods t) t.Promoted) }

/-- The `sort.Slice` comparators of `toPkgDoc`, modelled as sorts. -/
def sortValueDocs (vs : List ValueDoc) : List ValueDoc :=
  vs.mergeSort (fun a b => decide (strJoin "," a.Names ≤ strJoin "," b.Names))

/-- Sort functions by name. -/
def sortFuncDocs (fs : List FuncDoc) : List FuncDoc :=
  fs.mergeSort (fun a b => decide (a.Name ≤ b.Name))

/-- Sort types by name. -/
def sortTypeDocs (ts : List TypeDoc) : List TypeDoc :=
  ts.mergeSort (fun a b => decide (a.Name ≤ b.Name))

/-- The const groups `toPkgDoc` accumulates before sorting: the
package-level groups, then the type-associated groups in type order. -/
def collectedConsts (p : DocPackageSrc) : List ValueDoc :=
  p.Consts.map (fun c => ValueDoc.mk c.Names c.Doc) ++
  p.Types.flatMap (fun t => t.Consts.map (fun c => ValueDoc.mk c.Names c.Doc))

/-- The var groups `toPkgDoc` accumulates before sorting. -/
def collectedVars (p : DocPackageSrc) : List ValueDoc :=
  p.Vars.map (fun v => ValueDoc.mk v.Names v.Doc) ++
  p.Types.flatMap (fun t => t.Vars.map (fun v => ValueDoc.mk v.Names v.Doc))

/-- The functions `toPkgDoc` accumulates before sorting: package-level
functions, then the factory functions of each type in type order. -/
def collectedFuncs (p : DocPackageSrc) : List FuncDoc :=
  p.Funcs.map (fun f => FuncDoc.mk f.Name f.Args f.Returns f.Doc) ++
  p.Types.flatMap (fun t =>
    t.Funcs.map (fun f => FuncDoc.mk f.Name f.Args f.Returns f.Doc))

/-- Embeds `toPkgDoc` from `doc_builder.go`.  `parse` and `render`
stand for the `comment.Parser` / `comment.Printer` collaborators used
for the package HTML. -/
def toPkgDoc (parse : String → CommentDoc) (render : CommentDoc → String)
    (p : DocPackageSrc) (importPath : String) : PackageDoc :=
  let types := p.Types.map toTypeDoc
  let html := if p.Doc ≠ "" then render (parse p.Doc) else ""
  { ImportPath := importPath, Name := p.Name, Synopsis := p.Synopsis,
    DocText := p.Doc, DocHTML := html,
    Consts := sortValueDocs (collectedConsts p),
    Vars := sortValueDocs (collectedVars p),
    Funcs := sortFuncDocs (collectedFuncs p), Types := sortTypeDocs types }

/-- Embeds `makeSymbolDoc` from `doc_builder.go`. -/
def makeSymbolDoc (parse : String → CommentDoc) (render : CommentDoc → String)
    (importPath pkgName kind name recvName recvType text : String)
    (args returns : List ArgInfo) (typeDoc : Option TypeDoc) : SymbolDoc :=
  let docParsed : Option CommentDoc :=
    if text ≠ "" then some (parse text) else none
  let html : String :=
    match docParsed with
    | some d => render d
    | none => ""
  let funcDoc : Option FuncDoc :=
    if kind = "func" || kind = "method" then
      some { Name := name, Args := args, Returns := returns, Doc := text }
    else none
  { ImportPath := importPath, Package := pkgName, Kind := kind, Name := name,
    Receiver := receiverDisplayName recvType, ReceiverName := recvName,
    ReceiverType := recvType, FuncDocPart := funcDoc, TypeDocPart := typeDoc,
    DocText := text, DocHTML := html, docParsed := docParsed }

/-- The symbol index, modelled as an association list with at most one
binding per key (the Go `map[string]SymbolDoc` with its insert-if-
absent discipline). -/
abbrev SymMap : Type := List (String × SymbolDoc)

/-- The `add` closure of `buildSymbolIndex` in `doc_builder.go`: skip
empty keys, and leave the map unchanged when the key is already
present (first registration wins). -/
def addSym (m : SymMap) (key : String) (d : SymbolDoc) : SymMap :=
  if key = "" then m
  else if (List.lookup key m).isSome then m
  else m ++ [(key, d)]

/-- The sequence of `add` calls `buildSymbolIndex` performs, in source
order: for every type its type symbol, its (merged, sorted) methods,
its factory functions under both the qualified and the plain name,
its grouped consts and vars; then the package-level functions, consts
and vars. -/
def symbolRegs (parse : String → CommentDoc) (render : CommentDoc → String)
    (p : DocPackageSrc) (importPath : String) : List (String × SymbolDoc) :=
  let mk := makeSymbolDoc parse render importPath p.Name
  (p.Types.flatMap (fun t =>
    let td := toTypeDoc t
    ((t.Name, mk "type" t.Name "" "" t.Doc [] [] (some td)) ::
      td.Methods.map (fun m =>
        let recvType := if m.RecvType ≠ "" then m.RecvType else m.Recv
        (t.Name ++ "." ++ m.Name,
          mk "method" m.Name m.RecvName recvType m.Doc m.Args m.Returns none)) ++
      t.Funcs.flatMap (fun f =>
        [(t.Name ++ "." ++ f.Name,
            mk "func" f.Name "" "" f.Doc f.Args f.Returns none),
         (f.Name, mk "func" f.Name "" "" f.Doc f.Args f.Returns none)]) ++
      t.Consts.flatMap (fun c =>
        c.Names.map (fun n => (n, mk "const" n "" "" c.Doc [] [] none))) ++
      t.Vars.flatMap (fun v =>
        v.Names.map (fun n => (n, mk "var" n "" "" v.Doc [] [] none)))))) ++
  p.Funcs.map (fun f =>
    (f.Name, mk "func" f.Name "" "" f.Doc f.Args f.Returns none)) ++
  p.Consts.flatMap (fun c =>
    c.Names.map (fun n => (n, mk "const" n "" "" c.Doc [] [] none))) ++
  p.Vars.flatMap (fun v =>
    v.Names.map (fun n => (n, mk "var" n "" "" v.Doc [] [] none)))

/-- Fold a registration sequence through `addSym` (how the Go loop
body builds the map). -/
def regFold (regs : List (String × SymbolDoc)) : SymMap :=
  regs.foldl (fun m r => addSym m r.1 r.2) []

/-- Embeds `buildSymbolIndex` from `doc_builder.go`. -/
def buildSymbolIndex (parse : String → CommentDoc)
    (render : CommentDoc → String) (p : DocPackageSrc) (importPath : String) :
    SymMap :=
  regFold (symbolRegs parse render p importPath)

/-! ## The lazy HTML accessor (`SymbolDoc.HTML`)

`func (s SymbolDoc) HTML() string` is declared on a VALUE receiver:
the method body operates on a copy of the receiver instance, so the
assignment `s.DocHTML = ...` inside the body is not visible to the
caller.  One call is modelled as returning the output string, the
caller-visible instance after the call (unchanged, by Go value
semantics), and a flag recording whether the `comment.Printer` ran.
`render` stands for `comment.Printer{HeadingLevel: 3}.HTML`, a
deterministic function of the parsed doc. -/

/-- One call of `SymbolDoc.HTML` on instance `s`. -/
def symbolDocHTMLCall (render : CommentDoc → String) (s : SymbolDoc) :
    String × SymbolDoc × Bool :=
  if s.DocHTML = "" then
    match s.docParsed with
    | some d => (render d, s, true)
    | none => (s.DocHTML, s, false)
  else (s.DocHTML, s, false)

/-- Two successive calls of `HTML()` on the same instance: the pair of
outputs and the total number of renderings performed. -/
def symbolDocHTMLTwice (render : CommentDoc → String) (s : SymbolDoc) :
    (String × String) × Nat :=
  let c1 := symbolDocHTMLCall render s
  let c2 := symbolDocHTMLCall render c1.2.1
  ((c1.1, c2.1), (cond c1.2.2 1 0) + (cond c2.2.2 1 0))

/-! ## Specification-side definitions

These definitions follow the WORDS OF THE SPEC (not the source); they
exist only to be compared against the source-derived definitions in
refinement claims. -/

/-- Modelled from the spec: "a unit is local/standard exactly when it
is a single path segment with no domain-like first component" — no
'/' anywhere (single segment) and no '.' in the (only) component. -/
def specIsLocalStd (importPath : String) : Bool :=
  !(importPath.data.contains '/') && !(importPath.data.contains '.')

/-- Modelled from the spec: the claimed `expectedVersion` computation
of claim C4, using the single-segment characterization above. -/
def specExpectedVersion (rt importPath version : String) : String :=
  if importPath = "." then ""
  else if specIsLocalStd importPath then rt
  else strTrim version

/-- Skip-list variant of the promoted-method merge: keep the promoted
methods whose names are not in `seen`, first occurrence per name. -/
def filterDedup : List MethodDoc → List String → List MethodDoc
  | [], _ => []
  | m :: ms, seen =>
    if m.Name ∈ seen then filterDedup ms seen
    else m :: filterDedup ms (m.Name :: seen)

/-- First-occurrence de-dup with an exclusion set, the closed form of
the `uniqKeys` fold state. -/
def dedupSeen (seen : List String) : List String → List String
  | [] => []
  | k :: ks =>
    if k = "" ∨ k ∈ seen then dedupSeen seen ks
    else k :: dedupSeen (k :: seen) ks

/-! ## Concrete sample values for witnesses -/

/-- A sample package doc for a remote unit. -/
def samplePkgDoc : PackageDoc :=
  { ImportPath := "example.com/m", Name := "m", Synopsis := "", DocText := "",
    DocHTML := "", Consts := [], Vars := [], Funcs := [], Types := [] }

/-- A sample symbol doc. -/
def sampleSymDoc : SymbolDoc :=
  { ImportPath := "example.com/m", Package := "m", Kind := "func",
    Name := "F", Receiver := "", ReceiverName := "", ReceiverType := "",
    FuncDocPart := none, TypeDocPart := none, DocText := "", DocHTML := "",
    docParsed := none }

/-- A sample metadata-only cache entry (shape used by the
save-error test of the repository). -/
def sampleMetaEntry : cacheEntry :=
  { Package := none, Symbol := none,
    meta := { GoVersion := "go1.25.0", ModuleVersion := "" } }

/-- A sample successful build outcome for the remote unit. -/
def sampleBuildOut : BuildOut :=
  { pkgDoc := samplePkgDoc, symbols := [("F", sampleSymDoc)],
    pkgPath := "example.com/m", actualVersion := "v1",
    meta := { GoVersion := "", ModuleVersion := "v1" } }

/-- A second, distinct symbol doc (for collision demonstrations). -/
def sampleSymDocB : SymbolDoc :=
  { sampleSymDoc with DocText := "second" }

/-- A symbol doc in the lazy-HTML state: empty `DocHTML`, parsed doc
present (the state the lazy branch of `HTML()` is written for). -/
def sampleLazySymDoc : SymbolDoc :=
  { sampleSymDoc with DocText := "x", docParsed := some ⟨"x"⟩ }

/-- A sample deterministic rendering collaborator. -/
def sampleRender (d : CommentDoc) : String := "<p>" ++ d.text ++ "</p>"

/-- A small front-end output with two const groups and two functions,
in source order. -/
def sampleDocPkgP : DocPackageSrc :=
  { Name := "m", Doc := "", Synopsis := "",
    Consts := (⟨("A" :: []), "da"⟩ :: ⟨("B" :: []), "db"⟩ :: []),
    Vars := [],
    Funcs := (⟨"F", "df", [], []⟩ :: ⟨"G", "dg", [], []⟩ :: []),
    Types := [] }

/-- The same declarations delivered in the opposite iteration order. -/
def sampleDocPkgQ : DocPackageSrc :=
  { Name := "m", Doc := "", Synopsis := "",
    Consts := (⟨("B" :: []), "db"⟩ :: ⟨("A" :: []), "da"⟩ :: []),
    Vars := [],
    Funcs := (⟨"G", "dg", [], []⟩ :: ⟨"F", "df", [], []⟩ :: []),
    Types := [] }

/-- The entry the sample build outcome writes on a package miss. -/
def sampleWrittenEntry : cacheEntry :=
  { Package := some samplePkgDoc, Symbol := none, meta := sampleBuildOut.meta }

/-- A package cache entry recorded under an OLD toolchain version. -/
def samplePkgEntry : cacheEntry :=
  { Package := some samplePkgDoc, Symbol := none,
    meta := { GoVersion := "go1.0.0", ModuleVersion := "v1" } }

/-- The fingerprint of the sample remote package request. -/
def sampleRemoteKey : String :=
  getCacheKey "example.com/m" (getPkgVersion "go1.25.0" "example.com/m" "v1") ""

/-- A cache holding only the sample remote entry. -/
def sampleRemoteCache : CacheMap :=
  fun k => if k = sampleRemoteKey then some samplePkgEntry else none

/-- The fingerprint of a local ("fmt") package request. -/
def sampleLocalKey : String :=
  getCacheKey "fmt" (getPkgVersion "go1.25.0" "fmt" "") ""

/-- A cache holding the old-toolchain entry under the local key. -/
def sampleLocalCache : CacheMap :=
  fun k => if k = sampleLocalKey then some samplePkgEntry else none

/-! # Helper lemmas -/

/-- The helper `Nat.toDigitsCore` never shrinks the accumulator. -/
theorem toDigitsCore_length_le (b : Nat) :
    ∀ (fuel n : Nat) (ds : List Char),
      ds.length ≤ (Nat.toDigitsCore b fuel n ds).length := by
  intro fuel
  induction fuel with
  | zero => intro n ds; simp [Nat.toDigitsCore]
  | succ f ih =>
    intro n ds
    simp only [Nat.toDigitsCore]
    by_cases h : n / b = 0
    · simp [h]
    · simpa [h] using Nat.le_trans (by simp) (ih (n / b) (Nat.digitChar (n % b) :: ds))

/-- The output of `Nat.toDigits` is never empty. -/
theorem toDigits_ne_nil (b n : Nat) : Nat.toDigits b n ≠ [] := by
  unfold Nat.toDigits
  simp only [Nat.toDigitsCore]
  by_cases h : n / b = 0
  · simp [h]
  · simp only [h, if_false]
    intro hcon
    have h1 := toDigitsCore_length_le b n (n / b) [Nat.digitChar (n % b)]
    rw [hcon] at h1
    simp at h1

/-- Cache keys are non-empty hex strings. -/
theorem getCacheKey_ne_empty (importPath version sel : String) :
    getCacheKey importPath version sel ≠ "" := by
  unfold getCacheKey natToHex
  intro h
  have hd : (⟨Nat.toDigits 16
      (fnv64a (strBytes importPath ++ [0] ++ strBytes version ++ [0] ++
        strBytes sel))⟩ : String).data = ("" : String).data := by rw [h]
  exact toDigits_ne_nil 16 _ hd

/-- One write-step function of `setCacheEntry`, named for reuse. -/
theorem foldl_cacheSet_stable (entry : cacheEntry) (keys : List String) :
    ∀ (c : CacheMap) (k : String), c k = some entry →
      (keys.foldl (fun acc kk => if kk = "" then acc else cacheSet acc kk entry) c) k
        = some entry := by
  induction keys with
  | nil => intro c k h; simpa using h
  | cons a as ih =>
    intro c k h
    simp only [List.foldl_cons]
    apply ih
    by_cases ha : a = ""
    · simpa [ha] using h
    · simp only [ha, if_false, cacheSet]
      by_cases hk : k = a <;> simp [hk, h]

/-- Every non-empty key in the list ends up mapped to the entry. -/
theorem foldl_cacheSet_mem (entry : cacheEntry) (keys : List String) :
    ∀ (c : CacheMap) (k : String), k ∈ keys → k ≠ "" →
      (keys.foldl (fun acc kk => if kk = "" then acc else cacheSet acc kk entry) c) k
        = some entry := by
  induction keys with
  | nil => intro c k h; simp at h
  | cons a as ih =>
    intro c k hk hne
    simp only [List.foldl_cons]
    rcases List.mem_cons.mp hk with h | h
    · subst h
      apply foldl_cacheSet_stable
      simp [hne, cacheSet]
    · exact ih _ k h hne

/-- Keys outside the list are untouched by the write loop. -/
theorem foldl_cacheSet_untouched (entry : cacheEntry) (keys : List String) :
    ∀ (c : CacheMap) (k : String), k ∉ keys →
      (keys.foldl (fun acc kk => if kk = "" then acc else cacheSet acc kk entry) c) k
        = c k := by
  induction keys with
  | nil => intro c k _; rfl
  | cons a as ih =>
    intro c k hk
    simp only [List.foldl_cons]
    have hka : k ≠ a := fun h => hk (h ▸ List.mem_cons_self a as)
    have hkas : k ∉ as := fun h => hk (List.mem_cons_of_mem a h)
    rw [ih _ k hkas]
    by_cases ha : a = "" <;> simp [ha, cacheSet, hka]

/-- Dropping a satisfied prefix twice is the same as once. -/
theorem dropWhile_dropWhile (p : Char → Bool) (l : List Char) :
    (l.dropWhile p).dropWhile p = l.dropWhile p := by
  cases h : l.dropWhile p with
  | nil => rfl
  | cons a t =>
    have hhead := List.head?_dropWhile_not p l
    rw [h] at hhead
    simp only [List.head?_cons] at hhead
    rw [List.dropWhile_cons, hhead]
    simp

/-- A prefix of a list with no satisfied head has no satisfied head. -/
theorem dropWhile_eq_self_of_prefix (p : Char → Bool) (l m : List Char)
    (hm : m.dropWhile p = m) (hpre : List.IsPrefix l m) : l.dropWhile p = l := by
  cases l with
  | nil => rfl
  | cons a t =>
    cases m with
    | nil =>
      rcases hpre with ⟨r, hr⟩
      simp at hr
    | cons b s =>
      rcases hpre with ⟨r, hr⟩
      have hab : a = b := by
        have := congrArg (fun x => List.head? x) hr
        simpa using this
      have hpb : p b = false := by
        by_cases hcase : p b = true
        · rw [List.dropWhile_cons, hcase] at hm
          simp only [if_true] at hm
          have hlen := congrArg List.length hm
          have hle : (List.dropWhile p s).length ≤ s.length :=
            (List.dropWhile_suffix p).sublist.length_le
          simp at hlen
          omega
        · simpa using hcase
      rw [List.dropWhile_cons]
      simp [hab, hpb]

/-- Trimming via `trimChars` is idempotent. -/
theorem trimChars_idem (l : List Char) : trimChars (trimChars l) = trimChars l := by
  unfold trimChars
  have hd1 : (l.dropWhile Char.isWhitespace).dropWhile Char.isWhitespace
      = l.dropWhile Char.isWhitespace := dropWhile_dropWhile _ l
  have hs : List.IsSuffix
      ((l.dropWhile Char.isWhitespace).reverse.dropWhile Char.isWhitespace)
      (l.dropWhile Char.isWhitespace).reverse := List.dropWhile_suffix _
  have hp : List.IsPrefix
      ((l.dropWhile Char.isWhitespace).reverse.dropWhile Char.isWhitespace).reverse
      (l.dropWhile Char.isWhitespace).reverse.reverse :=
    List.reverse_prefix.mpr hs
  rw [List.reverse_reverse] at hp
  have hu := dropWhile_eq_self_of_prefix Char.isWhitespace
    ((l.dropWhile Char.isWhitespace).reverse.dropWhile Char.isWhitespace).reverse
    (l.dropWhile Char.isWhitespace) hd1 hp
  rw [hu, List.reverse_reverse, dropWhile_dropWhile]

/-- Trimming via `strTrim` is idempotent (`strings.TrimSpace` applied twice). -/
theorem strTrim_idem (s : String) : strTrim (strTrim s) = strTrim s := by
  show (⟨trimChars (⟨trimChars s.data⟩ : String).data⟩ : String) = _
  simp only [String.data]
  exact congrArg String.mk (trimChars_idem s.data)

/-- An identifier-start character is an identifier character. -/
theorem isIdentChar_of_start (c : Char) (h : isIdentStart c = true) :
    isIdentChar c = true := by
  have h2 : c.isAlpha = true ∨ c = '_' := by simpa [isIdentStart] using h
  rcases h2 with ha | hu
  · simp [isIdentChar, Char.isAlphanum, ha]
  · simp [isIdentChar, hu]

/-- Every character of a selector-regex tail match is an identifier
character or a dot. -/
theorem matchSelRest_chars : ∀ (l : List Char), matchSelRest l = true →
    ∀ c ∈ l, isIdentChar c = true ∨ c = '.' := by
  intro l
  induction l using matchSelRest.induct with
  | case1 => intro _ c hc; simp at hc
  | case2 => intro h; simp [matchSelRest] at h
  | case3 c cs ih =>
    intro h x hx
    simp only [matchSelRest, Bool.and_eq_true] at h
    rcases List.mem_cons.mp hx with hx1 | hx2
    · right; exact hx1
    · rcases List.mem_cons.mp hx2 with hx3 | hx4
      · exact Or.inl (hx3 ▸ isIdentChar_of_start _ h.1)
      · exact ih h.2 x hx4
  | case4 c cs h1 h2 ih =>
    intro h x hx
    have hc : c ≠ '.' := by
      intro hceq
      cases cs with
      | nil => exact h1 hceq rfl
      | cons y ys => exact h2 y ys hceq rfl
    have hform : matchSelRest (c :: cs) = (isIdentChar c && matchSelRest cs) := by
      cases cs with
      | nil => simp [matchSelRest, hc]
      | cons y ys => simp [matchSelRest, hc]
    rw [hform, Bool.and_eq_true] at h
    rcases List.mem_cons.mp hx with hx1 | hx2
    · exact Or.inl (hx1 ▸ h.1)
    · exact ih h.2 x hx2

/-- Every character of a full selector-regex match is an identifier
character or a dot. -/
theorem matchSelector_chars (l : List Char) (h : matchSelector l = true) :
    ∀ c ∈ l, isIdentChar c = true ∨ c = '.' := by
  cases l with
  | nil => intro c hc; simp at hc
  | cons a t =>
    simp only [matchSelector, Bool.and_eq_true] at h
    intro x hx
    rcases List.mem_cons.mp hx with hx1 | hx2
    · exact Or.inl (hx1 ▸ isIdentChar_of_start _ h.1)
    · exact matchSelRest_chars t h.2 x hx2

/-- A symbol containing a space fails the selector regex. -/
theorem selectorRegexMatch_false_of_space (s : String) (hs : ' ' ∈ s.data) :
    selectorRegexMatch s = false := by
  by_cases h : selectorRegexMatch s = true
  · rcases matchSelector_chars s.data h ' ' hs with hid | hdot
    · rw [show isIdentChar ' ' = false from by decide] at hid
      simp at hid
    · simp at hdot
  · simpa using h

/-- Members of `dedupSeen seen ks` are exactly the non-empty members
of `ks` outside `seen`. -/
theorem dedupSeen_mem : ∀ (ks : List String) (seen : List String) (x : String),
    x ∈ dedupSeen seen ks ↔ (x ∈ ks ∧ x ∉ seen ∧ x ≠ "") := by
  intro ks
  induction ks with
  | nil => intro seen x; simp [dedupSeen]
  | cons k kt ih =>
    intro seen x
    by_cases hk : k = "" ∨ k ∈ seen
    · rw [show dedupSeen seen (k :: kt) = dedupSeen seen kt from by
        simp [dedupSeen, hk]]
      rw [ih]
      constructor
      · rintro ⟨h1, h2, h3⟩
        exact ⟨List.mem_cons_of_mem _ h1, h2, h3⟩
      · rintro ⟨h1, h2, h3⟩
        rcases List.mem_cons.mp h1 with he | ht
        · subst he
          rcases hk with hk | hk
          · exact absurd hk h3
          · exact absurd hk h2
        · exact ⟨ht, h2, h3⟩
    · push_neg at hk
      rw [show dedupSeen seen (k :: kt) = k :: dedupSeen (k :: seen) kt from by
        simp [dedupSeen, hk.1, hk.2]]
      constructor
      · intro hx
        rcases List.mem_cons.mp hx with he | ht
        · subst he
          exact ⟨List.mem_cons_self _ _, hk.2, hk.1⟩
        · rcases (ih (k :: seen) x).mp ht with ⟨h1, h2, h3⟩
          refine ⟨List.mem_cons_of_mem _ h1, fun hc => h2 (List.mem_cons_of_mem _ hc), h3⟩
      · rintro ⟨h1, h2, h3⟩
        rcases List.mem_cons.mp h1 with he | ht
        · exact he ▸ List.mem_cons_self _ _
        · by_cases hxk : x = k
          · exact hxk ▸ List.mem_cons_self _ _
          · refine List.mem_cons_of_mem _ ((ih (k :: seen) x).mpr ⟨ht, ?_, h3⟩)
            intro hc
            rcases List.mem_cons.mp hc with hc1 | hc2
            · exact hxk hc1
            · exact h2 hc2

/-- The function `dedupSeen` yields a duplicate-free list. -/
theorem dedupSeen_nodup : ∀ (ks seen : List String), (dedupSeen seen ks).Nodup := by
  intro ks
  induction ks with
  | nil => intro seen; simp [dedupSeen]
  | cons k kt ih =>
    intro seen
    by_cases hk : k = "" ∨ k ∈ seen
    · rw [show dedupSeen seen (k :: kt) = dedupSeen seen kt from by
        simp [dedupSeen, hk]]
      exact ih seen
    · push_neg at hk
      rw [show dedupSeen seen (k :: kt) = k :: dedupSeen (k :: seen) kt from by
        simp [dedupSeen, hk.1, hk.2]]
      refine List.nodup_cons.mpr ⟨?_, ih (k :: seen)⟩
      intro hc
      exact ((dedupSeen_mem kt (k :: seen) k).mp hc).2.1 (List.mem_cons_self _ _)

/-- The function `dedupSeen` preserves the order of kept keys (it is a sublist). -/
theorem dedupSeen_sublist : ∀ (ks seen : List String),
    (dedupSeen seen ks).Sublist ks := by
  intro ks
  induction ks with
  | nil => intro seen; simp [dedupSeen]
  | cons k kt ih =>
    intro seen
    by_cases hk : k = "" ∨ k ∈ seen
    · rw [show dedupSeen seen (k :: kt) = dedupSeen seen kt from by
        simp [dedupSeen, hk]]
      exact List.Sublist.cons _ (ih seen)
    · push_neg at hk
      rw [show dedupSeen seen (k :: kt) = k :: dedupSeen (k :: seen) kt from by
        simp [dedupSeen, hk.1, hk.2]]
      exact List.Sublist.cons₂ _ (ih (k :: seen))

/-- The function `dedupSeen` only depends on the membership of the seen set. -/
theorem dedupSeen_congr : ∀ (ks seen1 seen2 : List String),
    (∀ x, x ∈ seen1 ↔ x ∈ seen2) → dedupSeen seen1 ks = dedupSeen seen2 ks := by
  intro ks
  induction ks with
  | nil => intro _ _ _; rfl
  | cons k kt ih =>
    intro seen1 seen2 hset
    by_cases hk : k = "" ∨ k ∈ seen1
    · have hk2 : k = "" ∨ k ∈ seen2 := by
        rcases hk with h | h
        · exact Or.inl h
        · exact Or.inr ((hset k).mp h)
      rw [show dedupSeen seen1 (k :: kt) = dedupSeen seen1 kt from by
          simp [dedupSeen, hk],
        show dedupSeen seen2 (k :: kt) = dedupSeen seen2 kt from by
          simp [dedupSeen, hk2]]
      exact ih seen1 seen2 hset
    · push_neg at hk
      have hk2 : ¬(k = "" ∨ k ∈ seen2) := by
        push_neg
        exact ⟨hk.1, fun hc => hk.2 ((hset k).mpr hc)⟩
      push_neg at hk2
      rw [show dedupSeen seen1 (k :: kt) = k :: dedupSeen (k :: seen1) kt from by
          simp [dedupSeen, hk.1, hk.2],
        show dedupSeen seen2 (k :: kt) = k :: dedupSeen (k :: seen2) kt from by
          simp [dedupSeen, hk2.1, hk2.2]]
      refine congrArg _ (ih _ _ ?_)
      intro x
      simp only [List.mem_cons]
      exact or_congr Iff.rfl (hset x)

/-- Growing the seen set by one key filters that key out. -/
theorem dedupSeen_cons_seen : ∀ (ks : List String) (seen : List String) (k : String),
    dedupSeen (k :: seen) ks = (dedupSeen seen ks).filter (fun x => x ≠ k) := by
  intro ks
  induction ks with
  | nil => intro seen k; rfl
  | cons x xt ih =>
    intro seen k
    simp only [dedupSeen]
    by_cases hx : x = "" ∨ x ∈ seen
    · have hx2 : x = "" ∨ x ∈ k :: seen := by
        rcases hx with h | h
        · exact Or.inl h
        · exact Or.inr (List.mem_cons_of_mem _ h)
      rw [if_pos hx2, if_pos hx]
      exact ih seen k
    · push_neg at hx
      by_cases hxk : x = k
      · subst hxk
        rw [if_pos (Or.inr (List.mem_cons_self x seen)),
          if_neg (not_or.mpr ⟨hx.1, hx.2⟩), List.filter_cons]
        rw [if_neg (by simp)]
        symm
        rw [List.filter_eq_self]
        intro a ha
        have := ((dedupSeen_mem xt (x :: seen) a).mp ha).2.1
        simp only [List.mem_cons, not_or] at this
        simpa using this.1
      · have hx2 : ¬(x = "" ∨ x ∈ k :: seen) := by
          push_neg
          refine ⟨hx.1, ?_⟩
          intro hc
          rcases List.mem_cons.mp hc with h | h
          · exact hxk h
          · exact hx.2 h
        rw [if_neg hx2, if_neg (not_or.mpr ⟨hx.1, hx.2⟩), List.filter_cons]
        simp only [show (decide (x ≠ k)) = true from by simpa using hxk, if_true]
        refine congrArg _ ?_
        rw [show dedupSeen (x :: k :: seen) xt = dedupSeen (k :: x :: seen) xt from
          dedupSeen_congr xt _ _ (by intro a; simp only [List.mem_cons]; tauto)]
        exact ih (x :: seen) k

/-- Closed form of the `uniqKeys` fold. -/
theorem uniqKeys_foldl : ∀ (ks out seen : List String),
    (ks.foldl
      (fun (acc : List String × List String) key =>
        if key = "" then acc
        else if key ∈ acc.2 then acc
        else (acc.1 ++ [key], key :: acc.2))
      (out, seen)).1 = out ++ dedupSeen seen ks := by
  intro ks
  induction ks with
  | nil => intro out seen; simp [dedupSeen]
  | cons k kt ih =>
    intro out seen
    simp only [List.foldl_cons]
    by_cases hk1 : k = ""
    · rw [show dedupSeen seen (k :: kt) = dedupSeen seen kt from by
        simp [dedupSeen, hk1]]
      simpa [hk1] using ih out seen
    · by_cases hk2 : k ∈ seen
      · rw [show dedupSeen seen (k :: kt) = dedupSeen seen kt from by
          simp [dedupSeen, hk2]]
        simpa [hk1, hk2] using ih out seen
      · rw [show dedupSeen seen (k :: kt) = k :: dedupSeen (k :: seen) kt from by
          simp [dedupSeen, hk1, hk2]]
        have := ih (out ++ [k]) (k :: seen)
        simpa [hk1, hk2, List.append_assoc] using this

/-- The function `uniqKeys` is the first-occurrence de-duplication. -/
theorem uniqKeys_eq_dedupSeen (ks : List String) : uniqKeys ks = dedupSeen [] ks := by
  unfold uniqKeys
  simpa using uniqKeys_foldl ks [] []

/-- The defining recursion of order-preserving first-occurrence
de-duplication, satisfied by `uniqKeys`: an empty head key is
dropped, a non-empty head key is kept and all its later occurrences
are filtered out. -/
theorem uniqKeys_cons (k : String) (ks : List String) :
    uniqKeys (k :: ks) =
      if k = "" then uniqKeys ks
      else k :: (uniqKeys ks).filter (fun x => x ≠ k) := by
  rw [uniqKeys_eq_dedupSeen, uniqKeys_eq_dedupSeen]
  by_cases hk : k = ""
  · simp [dedupSeen, hk]
  · rw [show dedupSeen [] (k :: ks) = k :: dedupSeen [k] ks from by
      simp [dedupSeen, hk]]
    rw [if_neg hk]
    exact congrArg _ (dedupSeen_cons_seen ks [] k)

/-- Facts about `uniqKeys` output: duplicate-free, order-preserving, and
containing exactly the non-empty input keys. -/
theorem uniqKeys_spec (ks : List String) :
    (uniqKeys ks).Nodup ∧ (uniqKeys ks).Sublist ks ∧
      ∀ x, x ∈ uniqKeys ks ↔ (x ∈ ks ∧ x ≠ "") := by
  rw [uniqKeys_eq_dedupSeen]
  refine ⟨dedupSeen_nodup ks [], dedupSeen_sublist ks [], ?_⟩
  intro x
  rw [dedupSeen_mem]
  simp

/-- The `strings.Index`-based first component equals the
`takeWhile` characterization. -/
theorem firstPathComponent_eq_takeWhile : ∀ (l : List Char),
    firstPathComponent l = l.takeWhile (fun c => c ≠ '/') := by
  intro l
  induction l with
  | nil => rfl
  | cons a t ih =>
    unfold firstPathComponent
    rw [List.findIdx?_cons]
    by_cases ha : a = '/'
    · rw [if_pos (by simpa using ha), List.takeWhile_cons,
        if_neg (by simpa using ha)]
      simp
    · rw [if_neg (by simpa using ha), List.findIdx?_succ, List.takeWhile_cons,
        if_pos (by simpa using ha)]
      unfold firstPathComponent at ih
      cases h : List.findIdx? (fun c => decide (c = '/')) t with
      | none =>
        rw [h] at ih
        exact congrArg (List.cons a) ih
      | some j =>
        rw [h] at ih
        exact congrArg (List.cons a) ih

/-- Closed form of the map built by folding `addSym` over a
registration sequence: for a non-empty key, the stored doc is the one
of the FIRST registration under that key. -/
theorem lookup_addSym_foldl : ∀ (regs : List (String × SymbolDoc)) (m : SymMap)
    (k : String), k ≠ "" →
    List.lookup k (regs.foldl (fun acc r => addSym acc r.1 r.2) m) =
      (List.lookup k m).or ((regs.find? (fun r => r.1 = k)).map Prod.snd) := by
  intro regs
  induction regs with
  | nil => intro m k _; simp
  | cons r rs ih =>
    obtain ⟨a, b⟩ := r
    intro m k hk
    simp only [List.foldl_cons]
    rw [ih _ k hk]
    unfold addSym
    by_cases h1 : a = ""
    · rw [if_pos h1]
      rw [List.find?_cons_of_neg _ (by
        simp only [decide_eq_true_eq]
        intro hc
        exact hk (hc ▸ h1))]
    · rw [if_neg h1]
      by_cases h2 : (List.lookup a m).isSome
      · rw [if_pos h2]
        by_cases hrk : a = k
        · subst hrk
          rw [List.find?_cons_of_pos _ (by simp)]
          rcases Option.isSome_iff_exists.mp h2 with ⟨v, hv⟩
          simp [hv]
        · rw [List.find?_cons_of_neg _ (by simpa using hrk)]
      · rw [if_neg h2]
        rw [List.lookup_append]
        by_cases hrk : a = k
        · subst hrk
          rw [List.find?_cons_of_pos _ (by simp)]
          have hnone : List.lookup a m = none :=
            Option.not_isSome_iff_eq_none.mp h2
          have hone : List.lookup a [(a, b)] = some b := by
            simp [List.lookup]
          simp [hnone, hone]
        · rw [List.find?_cons_of_neg _ (by simpa using hrk)]
          have hzero : List.lookup k [(a, b)] = none := by
            have : (k == a) = false := by
              simp only [beq_eq_false_iff_ne, ne_eq]
              exact fun hc => hrk hc.symm
            simp [List.lookup, this]
          rw [hzero, Option.or_none]

/-- Closed form of the promoted-method fold in `mergePromoted`. -/
theorem mergePromoted_foldl : ∀ (promoted : List MethodDoc)
    (acc : List MethodDoc) (seen : List String),
    (promoted.foldl
      (fun (acc : List MethodDoc × List String) m =>
        if m.Name ∈ acc.2 then acc else (acc.1 ++ [m], m.Name :: acc.2))
      (acc, seen)).1 = acc ++ filterDedup promoted seen := by
  intro promoted
  induction promoted with
  | nil => intro acc seen; simp [filterDedup]
  | cons m ms ih =>
    intro acc seen
    simp only [List.foldl_cons, filterDedup]
    by_cases hm : m.Name ∈ seen
    · rw [if_pos hm, if_pos hm]
      exact ih acc seen
    · rw [if_neg hm, if_neg hm]
      rw [ih (acc ++ [m]) (m.Name :: seen)]
      simp

/-- The function `mergePromoted` keeps all direct methods in place and appends the
promoted methods whose names are not yet taken, first occurrence per
name. -/
theorem mergePromoted_eq (direct promoted : List MethodDoc) :
    mergePromoted direct promoted =
      direct ++ filterDedup promoted (direct.map MethodDoc.Name) := by
  unfold mergePromoted
  exact mergePromoted_foldl promoted direct (direct.map MethodDoc.Name)

/-- Every method kept by `filterDedup` comes from the promoted list
and its name avoids the seen set. -/
theorem filterDedup_mem : ∀ (ms : List MethodDoc) (seen : List String)
    (x : MethodDoc), x ∈ filterDedup ms seen → x ∈ ms ∧ x.Name ∉ seen := by
  intro ms
  induction ms with
  | nil => intro seen x hx; simp [filterDedup] at hx
  | cons m mt ih =>
    intro seen x hx
    simp only [filterDedup] at hx
    by_cases hm : m.Name ∈ seen
    · rw [if_pos hm] at hx
      rcases ih seen x hx with ⟨h1, h2⟩
      exact ⟨List.mem_cons_of_mem _ h1, h2⟩
    · rw [if_neg hm] at hx
      rcases List.mem_cons.mp hx with he | ht
      · exact ⟨he ▸ List.mem_cons_self _ _, he ▸ hm⟩
      · rcases ih _ x ht with ⟨h1, h2⟩
        exact ⟨List.mem_cons_of_mem _ h1,
          fun hc => h2 (List.mem_cons_of_mem _ hc)⟩

/-- Sortedness of a key-based `mergeSort` (what `sort.Slice` with a
key-projection comparator guarantees). -/
theorem sorted_mergeSort_key {α : Type} (key : α → String) (l : List α) :
    List.Pairwise (fun a b => key a ≤ key b)
      (l.mergeSort (fun a b => decide (key a ≤ key b))) := by
  have h := @List.sorted_mergeSort _ (fun a b => decide (key a ≤ key b))
    (fun a b c hab hbc => by
      simp only [decide_eq_true_eq] at *
      exact le_trans hab hbc)
    (fun a b => by
      simp only [Bool.or_eq_true, decide_eq_true_eq]
      exact le_total (key a) (key b))
    l
  exact h.imp (fun hab => by simpa using hab)

/-- Two sorted lists that are permutations of each other and have
duplicate-free keys are equal. -/
theorem sorted_key_nodup_perm_eq {α : Type} (key : α → String) (l₁ l₂ : List α)
    (hperm : l₁.Perm l₂)
    (hs₁ : List.Pairwise (fun a b => key a ≤ key b) l₁)
    (hs₂ : List.Pairwise (fun a b => key a ≤ key b) l₂)
    (hnd : (l₁.map key).Nodup) : l₁ = l₂ := by
  have hnd₂ : (l₂.map key).Nodup := ((hperm.map key).nodup_iff).mp hnd
  have hne₁ : List.Pairwise (fun a b => key a ≠ key b) l₁ :=
    List.pairwise_map.mp hnd
  have hne₂ : List.Pairwise (fun a b => key a ≠ key b) l₂ :=
    List.pairwise_map.mp hnd₂
  have hlt₁ : List.Pairwise (fun a b => key a < key b) l₁ := by
    have := hs₁.and hne₁
    exact this.imp (fun h => lt_of_le_of_ne h.1 h.2)
  have hlt₂ : List.Pairwise (fun a b => key a < key b) l₂ := by
    have := hs₂.and hne₂
    exact this.imp (fun h => lt_of_le_of_ne h.1 h.2)
  haveI : IsAntisymm α (fun a b => key a < key b) :=
    ⟨fun _ _ h1 h2 => ((lt_asymm h1) h2).elim⟩
  exact List.eq_of_perm_of_sorted hperm hlt₁ hlt₂

/-- A one-element prefix test is a head test. -/
theorem singleton_isPrefixOf_iff (c : Char) (l : List Char) :
    [c].isPrefixOf l = true ↔ l.head? = some c := by
  cases l with
  | nil => simp [List.isPrefixOf]
  | cons a t =>
    simp only [List.isPrefixOf, List.head?_cons, Option.some_inj,
      Bool.and_eq_true, beq_iff_eq]
    constructor
    · rintro ⟨h, _⟩; exact h.symm
    · intro h; exact ⟨h.symm, by simp [List.isPrefixOf]⟩

/-- The test `List.contains` agrees with membership for characters. -/
theorem char_contains_iff (l : List Char) (c : Char) :
    l.contains c = true ↔ c ∈ l := by
  simp [List.contains]

/-- The in-memory component of `setCacheEntry` is always the write
fold, whatever persistence does. -/
theorem setCacheEntry_fst (persistent : Bool) (filePath : String)
    (save : SaveOutcome) (c : CacheMap) (entry : cacheEntry)
    (keys : List String) :
    (setCacheEntry persistent filePath save c entry keys).1 =
      keys.foldl (fun acc k => if k = "" then acc else cacheSet acc k entry) c := by
  unfold setCacheEntry
  by_cases h : (!persistent || filePath = "") = true
  · simp [h]
  · cases save <;> simp [h]

/-! # Claim theorems -/

/-- C3: `Load` returns an input error — the same error for every
cache state and every resolution-pipeline outcome, with the cache
returned unchanged, so no cache lookup or resolution work influences
the result — whenever the import path is empty after trimming,
contains "..", or starts with '/', and whenever a non-empty symbol
fails the `identifier(.identifier)*` selector regex; and validation
passes (returns no error) exactly on all other inputs. -/
theorem load_input_validation (importPath symbol : String) :
    (∀ e : GodocErr, validateInputs importPath symbol = some e →
      e.isInputErr = true ∧
      ∀ (rt : String) (persistent : Bool) (filePath : String)
        (save : SaveOutcome) (build : Except String BuildOut) (c : CacheMap)
        (version : String),
        Load rt persistent filePath save build c importPath symbol version
          = (.error e, c)) ∧
    (validateInputs importPath symbol = none ↔
      (strTrim importPath ≠ "" ∧
        ¬ List.IsInfix ('.' :: '.' :: []) importPath.data ∧
        importPath.data.head? ≠ some '/' ∧
        (symbol = "" ∨ selectorRegexMatch symbol = true))) := by
  have hc2 : strContains importPath ".." = true ↔
      List.IsInfix ('.' :: '.' :: []) importPath.data := by
    unfold strContains
    rw [show (String.data "..") = ('.' :: '.' :: []) from rfl]
    simp
  have hc3 : strHasPrefix importPath "/" = true ↔
      importPath.data.head? = some '/' := by
    unfold strHasPrefix
    rw [show (String.data "/") = ('/' :: []) from rfl]
    exact singleton_isPrefixOf_iff '/' importPath.data
  constructor
  · intro e he
    refine ⟨?_, ?_⟩
    · unfold validateInputs at he
      by_cases h1 : strTrim importPath = ""
      · rw [if_pos h1] at he
        cases Option.some_inj.mp he
        rfl
      · rw [if_neg h1] at he
        by_cases h2 : strContains importPath ".." = true
        · rw [if_pos h2] at he
          cases Option.some_inj.mp he
          rfl
        · rw [if_neg h2] at he
          by_cases h3 : strHasPrefix importPath "/" = true
          · rw [if_pos h3] at he
            cases Option.some_inj.mp he
            rfl
          · rw [if_neg h3] at he
            by_cases h4 : (symbol ≠ "" && !selectorRegexMatch symbol) = true
            · rw [if_pos h4] at he
              cases Option.some_inj.mp he
              rfl
            · rw [if_neg h4] at he
              exact absurd he (by simp)
    · intro rt persistent filePath save build c version
      unfold Load
      rw [he]
  · unfold validateInputs
    by_cases h1 : strTrim importPath = ""
    · simp [h1]
    · rw [if_neg h1]
      by_cases h2 : strContains importPath ".." = true
      · have h2p := hc2.mp h2
        rw [if_pos h2]
        simp [h2p]
      · rw [if_neg h2]
        have h2n : ¬ List.IsInfix ('.' :: '.' :: []) importPath.data :=
          fun hh => h2 (hc2.mpr hh)
        by_cases h3 : strHasPrefix importPath "/" = true
        · have h3p := hc3.mp h3
          rw [if_pos h3]
          simp [h3p]
        · rw [if_neg h3]
          have h3n : ¬ importPath.data.head? = some '/' :=
            fun hh => h3 (hc3.mpr hh)
          by_cases h4 : (symbol ≠ "" && !selectorRegexMatch symbol) = true
          · rw [if_pos h4]
            simp only [Bool.and_eq_true, decide_eq_true_eq,
              Bool.not_eq_true'] at h4
            simp [h1, h2n, h3n, h4.1, h4.2]
          · rw [if_neg h4]
            simp only [Bool.and_eq_true, decide_eq_true_eq,
              Bool.not_eq_true', not_and] at h4
            by_cases h5 : symbol = ""
            · simp [h1, h2n, h3n, h5]
            · have h6 : selectorRegexMatch symbol = true := by
                have := h4 h5
                simpa using this
              simp [h1, h2n, h3n, h5, h6]

/-- Witness for C3 at concrete inputs: "../x" is rejected with the
path-traversal input error for an arbitrary pipeline and cache, a
trailing-dot symbol is rejected, and a well-formed input passes. -/
theorem load_input_validation_witness :
    Load "go1.25.0" true "cachefile" SaveOutcome.ok (Except.error "boom")
        emptyCache "../x" "" ""
      = (.error (.invalidImportPath "cannot contain dotdot"), emptyCache) ∧
    validateInputs "pkg" "Method." = some (.invalidSelector "Method.") ∧
    validateInputs "fmt" "Printf" = none := by
  refine ⟨?_, by decide, by decide⟩
  have h := (load_input_validation "../x" "").1
    (.invalidImportPath "cannot contain dotdot") (by decide)
  exact h.2 "go1.25.0" true "cachefile" SaveOutcome.ok (Except.error "boom")
    emptyCache ""

/-- C10: the symbol is validated BEFORE whitespace trimming, so a
symbol padded with a leading or trailing space is rejected with the
invalid-symbol input error — for every pipeline and cache — whenever
the import path itself passes the path checks; this holds even when
the trimmed form of the symbol would be accepted. -/
theorem load_rejects_padded_symbol (importPath symbol : String)
    (hpath : validateInputs importPath "" = none)
    (hpad : symbol.data.head? = some ' ' ∨ symbol.data.getLast? = some ' ') :
    validateInputs importPath symbol = some (.invalidSelector symbol) ∧
    ∀ (rt : String) (persistent : Bool) (filePath : String)
      (save : SaveOutcome) (build : Except String BuildOut) (c : CacheMap)
      (version : String),
      Load rt persistent filePath save build c importPath symbol version
        = (.error (.invalidSelector symbol), c) := by
  have hmem : ' ' ∈ symbol.data := by
    rcases hpad with h | h
    · exact List.mem_of_mem_head? h
    · exact List.mem_of_mem_getLast? h
  have hnonempty : symbol ≠ "" := by
    intro hc
    rw [hc] at hmem
    simp at hmem
  have hbad : selectorRegexMatch symbol = false :=
    selectorRegexMatch_false_of_space symbol hmem
  have hval : validateInputs importPath symbol = some (.invalidSelector symbol) := by
    unfold validateInputs at hpath ⊢
    by_cases h1 : strTrim importPath = ""
    · rw [if_pos h1] at hpath
      exact absurd hpath (by simp)
    · rw [if_neg h1] at hpath ⊢
      by_cases h2 : strContains importPath ".." = true
      · rw [if_pos h2] at hpath
        exact absurd hpath (by simp)
      · rw [if_neg h2] at hpath ⊢
        by_cases h3 : strHasPrefix importPath "/" = true
        · rw [if_pos h3] at hpath
          exact absurd hpath (by simp)
        · rw [if_neg h3]
          rw [if_pos (by simp [hnonempty, hbad])]
  refine ⟨hval, ?_⟩
  intro rt persistent filePath save build c version
  unfold Load
  rw [hval]

/-- Witness for C10: " Printf" (leading space) is rejected by `Load`
even though its trimmed form "Printf" matches the selector regex. -/
theorem load_rejects_padded_symbol_witness :
    validateInputs "fmt" " Printf" = some (.invalidSelector " Printf") ∧
    strTrim " Printf" = "Printf" ∧
    selectorRegexMatch "Printf" = true ∧
    Load "go1.25.0" false "" SaveOutcome.ok (Except.error "unused") emptyCache
        "fmt" " Printf" ""
      = (.error (.invalidSelector " Printf"), emptyCache) := by
  have h := load_rejects_padded_symbol "fmt" " Printf" (by decide)
    (Or.inl (by decide))
  exact ⟨h.1, by decide, by decide,
    h.2 "go1.25.0" false "" SaveOutcome.ok (Except.error "unused") emptyCache ""⟩

/-- C4 counterexample: "net/http" is not a single path segment, so
the claimed characterization makes it remote and predicts the trimmed
requested version, but the source treats it as local/standard (its
first component "net" has no dot) and `getPkgVersion` returns the
running toolchain version. -/
theorem getPkgVersion_single_segment_counterexample :
    isRemoteImportPath "net/http" = false ∧
    specIsLocalStd "net/http" = false ∧
    getPkgVersion "go1.25.0" "net/http" " v1.2.3 " = "go1.25.0" ∧
    specExpectedVersion "go1.25.0" "net/http" " v1.2.3 " = "v1.2.3" ∧
    getPkgVersion "go1.25.0" "net/http" " v1.2.3 " ≠
      specExpectedVersion "go1.25.0" "net/http" " v1.2.3 " := by
  refine ⟨by decide, by decide, by decide, by decide, by decide⟩

/-- C4 (amended): `expectedVersion` is "" for "."; the whitespace-
trimmed requested version when the FIRST PATH COMPONENT of the import
path (the text before the first '/') contains a dot (domain-like,
hence remote); and the running toolchain version string otherwise
(local/standard units, which may span several path segments, such as
"net/http"). -/
theorem getPkgVersion_characterization (rt importPath version : String) :
    getPkgVersion rt importPath version =
      if importPath = "." then ""
      else if '.' ∈ importPath.data.takeWhile (fun c => c ≠ '/') then
        strTrim version
      else rt := by
  unfold getPkgVersion isRemoteImportPath
  by_cases h : importPath = "."
  · simp [h]
  · rw [if_neg h, if_neg h, firstPathComponent_eq_takeWhile]
    by_cases hc : '.' ∈ importPath.data.takeWhile (fun c => c ≠ '/')
    · rw [if_pos hc]
      rw [show (List.takeWhile (fun c => c ≠ '/') importPath.data).contains '.'
          = true from (char_contains_iff _ _).mpr hc]
      simp [h]
    · rw [if_neg hc]
      rw [show (List.takeWhile (fun c => c ≠ '/') importPath.data).contains '.'
          = false from by
        rcases hb : (List.takeWhile (fun c => c ≠ '/') importPath.data).contains '.' with _ | _
        · rfl
        · exact absurd ((char_contains_iff _ _).mp hb) hc]
      simp [h]

/-- Unfolding lemma for `deriveCacheMetadata` on a present module. -/
theorem deriveCacheMetadata_some (rt : String) (m : GoModule) (v : String) :
    deriveCacheMetadata rt (some m) v =
      if m.Path = "" then { GoVersion := rt, ModuleVersion := "" }
      else if !m.Main then
        { GoVersion := "",
          ModuleVersion :=
            if strTrim m.Version = "" then strTrim v else strTrim m.Version }
      else if strTrim v ≠ "" then
        { GoVersion := "", ModuleVersion := strTrim v }
      else { GoVersion := "", ModuleVersion := "" } := rfl

/-- C9: every cache entry built for a remote import path with a known
concrete module version — reported by the module metadata of a
non-main module, or taken from the non-empty resolved/requested
version — carries empty `GoVersion` provenance (and a non-empty
`ModuleVersion`), so remote freshness never depends on the recorded
toolchain version. -/
theorem remote_entry_clears_goversion (rt : String) (module : Option GoModule)
    (importPath resolved : String)
    (hremote : isRemoteImportPath importPath = true)
    (hknown : strTrim resolved ≠ "" ∨
      ∃ m, module = some m ∧ m.Path ≠ "" ∧ m.Main = false ∧
        strTrim m.Version ≠ "") :
    (buildDocMeta rt module importPath resolved).GoVersion = "" ∧
    (buildDocMeta rt module importPath resolved).ModuleVersion ≠ "" := by
  have hadjKeep : ∀ meta : cacheMetadata, meta.ModuleVersion ≠ "" →
      strTrim meta.ModuleVersion = meta.ModuleVersion →
      (remoteMetaAdjust importPath resolved meta).GoVersion = "" ∧
        (remoteMetaAdjust importPath resolved meta).ModuleVersion
          = meta.ModuleVersion := by
    intro meta hmv htrim
    unfold remoteMetaAdjust
    rw [if_pos hremote]
    rw [if_neg (show ¬((decide (meta.ModuleVersion = "") &&
        decide (strTrim resolved ≠ "")) = true) from by simp [hmv])]
    rw [if_pos (show strTrim meta.ModuleVersion ≠ "" from by
      rw [htrim]; exact hmv)]
    exact ⟨rfl, rfl⟩
  have hadjFill : ∀ meta : cacheMetadata, meta.ModuleVersion = "" →
      strTrim resolved ≠ "" →
      (remoteMetaAdjust importPath resolved meta).GoVersion = "" ∧
        (remoteMetaAdjust importPath resolved meta).ModuleVersion
          = strTrim resolved := by
    intro meta hmv hres
    unfold remoteMetaAdjust
    rw [if_pos hremote]
    rw [if_pos (show (decide (meta.ModuleVersion = "") &&
        decide (strTrim resolved ≠ "")) = true from by simp [hmv, hres])]
    rw [if_pos (show strTrim ({ meta with ModuleVersion := strTrim resolved } :
        cacheMetadata).ModuleVersion ≠ "" from by
      show strTrim (strTrim resolved) ≠ ""
      rw [strTrim_idem]
      exact hres)]
    exact ⟨rfl, rfl⟩
  unfold buildDocMeta
  cases module with
  | none =>
    have hres : strTrim resolved ≠ "" := by
      rcases hknown with h | ⟨m, hm, _⟩
      · exact h
      · simp at hm
    have hder : deriveCacheMetadata rt none resolved
        = { GoVersion := rt, ModuleVersion := "" } := rfl
    rw [hder]
    rcases hadjFill { GoVersion := rt, ModuleVersion := "" } rfl hres with ⟨h1, h2⟩
    exact ⟨h1, by rw [h2]; exact hres⟩
  | some m =>
    by_cases hpath : m.Path = ""
    · have hres : strTrim resolved ≠ "" := by
        rcases hknown with h | ⟨m2, hm2, hp2, _⟩
        · exact h
        · rw [Option.some_inj.mp hm2] at hpath
          exact absurd hpath hp2
      have hder : deriveCacheMetadata rt (some m) resolved
          = { GoVersion := rt, ModuleVersion := "" } := by
        rw [deriveCacheMetadata_some, if_pos hpath]
      rw [hder]
      rcases hadjFill { GoVersion := rt, ModuleVersion := "" } rfl hres with ⟨h1, h2⟩
      exact ⟨h1, by rw [h2]; exact hres⟩
    · by_cases hmain : m.Main = true
      · have hres : strTrim resolved ≠ "" := by
          rcases hknown with h | ⟨m2, hm2, _, hmn2, _⟩
          · exact h
          · rw [Option.some_inj.mp hm2] at hmain
            rw [hmain] at hmn2
            exact absurd hmn2 (by simp)
        have hder : deriveCacheMetadata rt (some m) resolved
            = { GoVersion := "", ModuleVersion := strTrim resolved } := by
          rw [deriveCacheMetadata_some, if_neg hpath, if_neg (by simp [hmain]),
            if_pos hres]
        rw [hder]
        rcases hadjKeep { GoVersion := "", ModuleVersion := strTrim resolved }
          hres (strTrim_idem _) with ⟨h1, h2⟩
        exact ⟨h1, by rw [h2]; exact hres⟩
      · by_cases hv : strTrim m.Version = ""
        · have hres : strTrim resolved ≠ "" := by
            rcases hknown with h | ⟨m2, hm2, _, _, hv2⟩
            · exact h
            · rw [Option.some_inj.mp hm2] at hv
              exact absurd hv hv2
          have hder : deriveCacheMetadata rt (some m) resolved
              = { GoVersion := "", ModuleVersion := strTrim resolved } := by
            rw [deriveCacheMetadata_some, if_neg hpath,
              if_pos (by simp [hmain]), if_pos hv]
          rw [hder]
          rcases hadjKeep { GoVersion := "", ModuleVersion := strTrim resolved }
            hres (strTrim_idem _) with ⟨h1, h2⟩
          exact ⟨h1, by rw [h2]; exact hres⟩
        · have hder : deriveCacheMetadata rt (some m) resolved
              = { GoVersion := "", ModuleVersion := strTrim m.Version } := by
            rw [deriveCacheMetadata_some, if_neg hpath,
              if_pos (by simp [hmain]), if_neg hv]
          rw [hder]
          rcases hadjKeep { GoVersion := "", ModuleVersion := strTrim m.Version }
            hv (strTrim_idem _) with ⟨h1, h2⟩
          exact ⟨h1, by rw [h2]; exact hv⟩

/-- Witness for C9: a remote unit, no module metadata, requested
version "v1" — the written provenance has empty `GoVersion`. -/
theorem remote_entry_clears_goversion_witness :
    (buildDocMeta "go1.25.0" none "example.com/m" "v1").GoVersion = "" ∧
    (buildDocMeta "go1.25.0" none "example.com/m" "v1").ModuleVersion = "v1" := by
  have h := remote_entry_clears_goversion "go1.25.0" none "example.com/m" "v1"
    (by decide) (Or.inl (by decide))
  exact ⟨h.1, by decide⟩

/-- C5: when the cache snapshot write fails during a set operation
under active persistence, the caller receives an error, but every
in-memory mutation of that set has already taken effect and is not
rolled back: the resulting in-memory cache equals the one of a
successful save, and a subsequent get under any of the written keys
returns the new entry.  A permission-flavored save failure surfaces
as the wrapped permission error. -/
theorem setCacheEntry_save_error_keeps_mutations (filePath : String)
    (save : SaveOutcome) (c : CacheMap) (entry : cacheEntry)
    (keys : List String) (hfp : filePath ≠ "") (hfail : save ≠ .ok) :
    ((setCacheEntry true filePath save c entry keys).2).isSome = true ∧
    (∀ k ∈ keys, k ≠ "" →
      (setCacheEntry true filePath save c entry keys).1 k = some entry) ∧
    (setCacheEntry true filePath save c entry keys).1
      = (setCacheEntry true filePath .ok c entry keys).1 ∧
    (save = .permissionErr →
      (setCacheEntry true filePath save c entry keys).2
        = some .persistPermission) := by
  refine ⟨?_, ?_, ?_, ?_⟩
  · unfold setCacheEntry
    rw [if_neg (by simp [hfp])]
    cases save with
    | ok => exact absurd rfl hfail
    | permissionErr => simp
    | otherErr m => simp
  · intro k hk hne
    rw [setCacheEntry_fst]
    exact foldl_cacheSet_mem entry keys c k hk hne
  · rw [setCacheEntry_fst, setCacheEntry_fst]
  · intro hperm
    subst hperm
    unfold setCacheEntry
    rw [if_neg (by simp [hfp])]

/-- Witness for C5, mirroring `TestSetCacheEntryHandlesSaveError`: a
read-only cache file and the key "alpha" — the error surfaces as a
permission error while the entry stays readable in memory. -/
theorem setCacheEntry_save_error_witness :
    ((setCacheEntry true "cache.gob" .permissionErr emptyCache sampleMetaEntry
      ("alpha" :: [])).2 = some .persistPermission) ∧
    ((setCacheEntry true "cache.gob" .permissionErr emptyCache sampleMetaEntry
      ("alpha" :: [])).1 "alpha" = some sampleMetaEntry) := by
  have h := setCacheEntry_save_error_keeps_mutations "cache.gob" .permissionErr
    emptyCache sampleMetaEntry ("alpha" :: []) (by decide) (by decide)
  exact ⟨h.2.2.2 rfl, h.2.1 "alpha" (List.mem_cons_self _ _) (by decide)⟩

/-- C1: for a present, non-expired entry under the computed
fingerprint carrying the looked-up payload: a remote unit is served
from cache whatever toolchain version the entry records; a
local/standard unit is served only when the recorded `GoVersion`
equals the running toolchain version; a stale local entry (and a
plain miss) makes the lookup run exactly the full rebuild path.
Both the package and the symbol lookup are covered. -/
theorem cache_hit_staleness_policy (rt : String) (persistent : Bool)
    (filePath : String) (save : SaveOutcome) (build : Except String BuildOut)
    (c : CacheMap) (importPath symbol version : String) :
    (∀ (entry : cacheEntry) (p : PackageDoc),
      c (getCacheKey importPath (getPkgVersion rt importPath version) "")
          = some entry →
      entry.Package = some p →
      (isRemoteImportPath importPath = true →
        getOrLoadPkg rt persistent filePath save build c importPath version
          = (.ok (p, p.ImportPath), c)) ∧
      (isRemoteImportPath importPath = false → entry.meta.GoVersion = rt →
        getOrLoadPkg rt persistent filePath save build c importPath version
          = (.ok (p, p.ImportPath), c)) ∧
      (isRemoteImportPath importPath = false → entry.meta.GoVersion ≠ rt →
        getOrLoadPkg rt persistent filePath save build c importPath version
          = pkgMissRebuild persistent filePath save build c importPath
              (getPkgVersion rt importPath version))) ∧
    (c (getCacheKey importPath (getPkgVersion rt importPath version) "") = none →
      getOrLoadPkg rt persistent filePath save build c importPath version
        = pkgMissRebuild persistent filePath save build c importPath
            (getPkgVersion rt importPath version)) ∧
    (∀ (entry : cacheEntry) (s : SymbolDoc),
      c (getCacheKey importPath (getPkgVersion rt importPath version)
          (strTrim symbol)) = some entry →
      entry.Symbol = some s →
      (isRemoteImportPath importPath = true →
        getOrLoadSymbol rt persistent filePath save build c importPath symbol
            version
          = (.ok (s, s.ImportPath), c)) ∧
      (isRemoteImportPath importPath = false → entry.meta.GoVersion = rt →
        getOrLoadSymbol rt persistent filePath save build c importPath symbol
            version
          = (.ok (s, s.ImportPath), c)) ∧
      (isRemoteImportPath importPath = false → entry.meta.GoVersion ≠ rt →
        getOrLoadSymbol rt persistent filePath save build c importPath symbol
            version
          = symMissRebuild persistent filePath save build c importPath
              (getPkgVersion rt importPath version) (strTrim symbol) symbol)) ∧
    (c (getCacheKey importPath (getPkgVersion rt importPath version)
        (strTrim symbol)) = none →
      getOrLoadSymbol rt persistent filePath save build c importPath symbol
          version
        = symMissRebuild persistent filePath save build c importPath
            (getPkgVersion rt importPath version) (strTrim symbol) symbol) := by
  refine ⟨?_, ?_, ?_, ?_⟩
  · intro entry p hpresent hpkg
    obtain ⟨epkg, esym, emeta⟩ := entry
    simp only at hpkg
    subst hpkg
    refine ⟨?_, ?_, ?_⟩
    · intro hremote
      have hhit : pkgCacheHit rt importPath
          (c (getCacheKey importPath (getPkgVersion rt importPath version) ""))
          = some p := by
        rw [hpresent]
        show (if isRemoteImportPath importPath then some p
          else if emeta.GoVersion = rt then some p else none) = some p
        rw [if_pos hremote]
      unfold getOrLoadPkg
      rw [hhit]
    · intro hlocal hfresh
      have hhit : pkgCacheHit rt importPath
          (c (getCacheKey importPath (getPkgVersion rt importPath version) ""))
          = some p := by
        rw [hpresent]
        show (if isRemoteImportPath importPath then some p
          else if emeta.GoVersion = rt then some p else none) = some p
        rw [if_neg (by simp [hlocal]), if_pos hfresh]
      unfold getOrLoadPkg
      rw [hhit]
    · intro hlocal hstale
      have hhit : pkgCacheHit rt importPath
          (c (getCacheKey importPath (getPkgVersion rt importPath version) ""))
          = none := by
        rw [hpresent]
        show (if isRemoteImportPath importPath then some p
          else if emeta.GoVersion = rt then some p else none) = none
        rw [if_neg (by simp [hlocal]), if_neg hstale]
      unfold getOrLoadPkg
      rw [hhit]
  · intro hmiss
    have hhit : pkgCacheHit rt importPath
        (c (getCacheKey importPath (getPkgVersion rt importPath version) ""))
        = none := by
      rw [hmiss]
      rfl
    unfold getOrLoadPkg
    rw [hhit]
  · intro entry s hpresent hsym
    obtain ⟨epkg, esym, emeta⟩ := entry
    simp only at hsym
    subst hsym
    refine ⟨?_, ?_, ?_⟩
    · intro hremote
      have hhit : symCacheHit rt importPath
          (c (getCacheKey importPath (getPkgVersion rt importPath version)
            (strTrim symbol))) = some s := by
        rw [hpresent]
        show (if isRemoteImportPath importPath then some s
          else if emeta.GoVersion = rt then some s else none) = some s
        rw [if_pos hremote]
      unfold getOrLoadSymbol
      rw [hhit]
    · intro hlocal hfresh
      have hhit : symCacheHit rt importPath
          (c (getCacheKey importPath (getPkgVersion rt importPath version)
            (strTrim symbol))) = some s := by
        rw [hpresent]
        show (if isRemoteImportPath importPath then some s
          else if emeta.GoVersion = rt then some s else none) = some s
        rw [if_neg (by simp [hlocal]), if_pos hfresh]
      unfold getOrLoadSymbol
      rw [hhit]
    · intro hlocal hstale
      have hhit : symCacheHit rt importPath
          (c (getCacheKey importPath (getPkgVersion rt importPath version)
            (strTrim symbol))) = none := by
        rw [hpresent]
        show (if isRemoteImportPath importPath then some s
          else if emeta.GoVersion = rt then some s else none) = none
        rw [if_neg (by simp [hlocal]), if_neg hstale]
      unfold getOrLoadSymbol
      rw [hhit]
  · intro hmiss
    have hhit : symCacheHit rt importPath
        (c (getCacheKey importPath (getPkgVersion rt importPath version)
          (strTrim symbol))) = none := by
      rw [hmiss]
      rfl
    unfold getOrLoadSymbol
    rw [hhit]

/-- Witness for C1: the remote entry recorded under an old toolchain
version is served as fresh, while the same entry under a local unit
key is stale and the lookup equals the full rebuild path. -/
theorem cache_hit_staleness_policy_witness :
    getOrLoadPkg "go1.25.0" false "" SaveOutcome.ok (Except.error "x")
        sampleRemoteCache "example.com/m" "v1"
      = (.ok (samplePkgDoc, samplePkgDoc.ImportPath), sampleRemoteCache) ∧
    samplePkgEntry.meta.GoVersion ≠ "go1.25.0" ∧
    getOrLoadPkg "go1.25.0" false "" SaveOutcome.ok (Except.error "x")
        sampleLocalCache "fmt" ""
      = pkgMissRebuild false "" SaveOutcome.ok (Except.error "x")
          sampleLocalCache "fmt" (getPkgVersion "go1.25.0" "fmt" "") := by
  have h1 := (cache_hit_staleness_policy "go1.25.0" false "" SaveOutcome.ok
    (Except.error "x") sampleRemoteCache "example.com/m" "" "v1").1
    samplePkgEntry samplePkgDoc
    (by unfold sampleRemoteCache sampleRemoteKey; rw [if_pos rfl]) rfl
  have h2 := (cache_hit_staleness_policy "go1.25.0" false "" SaveOutcome.ok
    (Except.error "x") sampleLocalCache "fmt" "" "").1
    samplePkgEntry samplePkgDoc
    (by unfold sampleLocalCache sampleLocalKey; rw [if_pos rfl]) rfl
  exact ⟨h1.1 (by decide), by decide, h2.2.2 (by decide) (by decide)⟩

/-- C2 counterexample: for the remote unit "example.com/m" requested
at version "v1" with resolution confirming "v1", the key list passed
to `setCacheEntry` is the de-duplicated pair followed by the appended
version-specific key — the requested key appears TWICE, so the list
is not the de-duplicated (duplicate-free) list of the three
fingerprints the claim describes. -/
theorem pkgWriteKeys_duplicate_counterexample :
    pkgWriteKeys "example.com/m"
        (getPkgVersion "go1.25.0" "example.com/m" "v1") "v1"
      = (getCacheKey "example.com/m" "v1" "" ::
          getCacheKey "example.com/m" "" "" ::
          getCacheKey "example.com/m" "v1" "" :: []) ∧
    ¬ (pkgWriteKeys "example.com/m"
        (getPkgVersion "go1.25.0" "example.com/m" "v1") "v1").Nodup ∧
    (uniqKeys (getCacheKey "example.com/m" "v1" "" ::
        getCacheKey "example.com/m" "" "" ::
        getCacheKey "example.com/m" "v1" "" :: [])).Nodup := by
  refine ⟨by decide, by decide, by decide⟩

/-- C2 (amended): on a package cache miss the freshly built entry is
written under `uniqKeys` of the requested and version-agnostic
fingerprints with the version-specific fingerprint (when a concrete
version was resolved) APPENDED AFTER the de-duplication, so the
written list may repeat the version-specific key; `uniqKeys` itself
de-duplicates order-preserving, keeping first occurrences and
dropping empty keys; and a subsequent read under any one of the three
fingerprints returns the identical entry. -/
theorem cache_write_aliases (rt : String) (persistent : Bool)
    (filePath : String) (save : SaveOutcome) (b : BuildOut) (c : CacheMap)
    (importPath version : String)
    (hmiss : c (getCacheKey importPath (getPkgVersion rt importPath version) "")
      = none) :
    ((getOrLoadPkg rt persistent filePath save (.ok b) c importPath version).2
      = (setCacheEntry persistent filePath save c
          { Package := some b.pkgDoc, Symbol := none, meta := b.meta }
          (pkgWriteKeys importPath (getPkgVersion rt importPath version)
            b.actualVersion)).1) ∧
    ((getOrLoadPkg rt persistent filePath save (.ok b) c importPath version).2
        (getCacheKey importPath (getPkgVersion rt importPath version) "")
      = some { Package := some b.pkgDoc, Symbol := none, meta := b.meta }) ∧
    ((getOrLoadPkg rt persistent filePath save (.ok b) c importPath version).2
        (getCacheKey importPath "" "")
      = some { Package := some b.pkgDoc, Symbol := none, meta := b.meta }) ∧
    (b.actualVersion ≠ "" →
      (getOrLoadPkg rt persistent filePath save (.ok b) c importPath version).2
          (getCacheKey importPath b.actualVersion "")
        = some { Package := some b.pkgDoc, Symbol := none, meta := b.meta }) ∧
    (∀ ks : List String, (uniqKeys ks).Nodup ∧ (uniqKeys ks).Sublist ks ∧
      (∀ x, x ∈ uniqKeys ks ↔ (x ∈ ks ∧ x ≠ ""))) ∧
    (∀ (k : String) (ks : List String), uniqKeys (k :: ks) =
      if k = "" then uniqKeys ks
      else k :: (uniqKeys ks).filter (fun x => x ≠ k)) := by
  have hhit : pkgCacheHit rt importPath
      (c (getCacheKey importPath (getPkgVersion rt importPath version) ""))
      = none := by
    rw [hmiss]
    rfl
  have hrun : getOrLoadPkg rt persistent filePath save (.ok b) c importPath
      version = pkgMissRebuild persistent filePath save (.ok b) c importPath
      (getPkgVersion rt importPath version) := by
    unfold getOrLoadPkg
    rw [hhit]
  have hsnd : (getOrLoadPkg rt persistent filePath save (.ok b) c importPath
      version).2 = (setCacheEntry persistent filePath save c
        { Package := some b.pkgDoc, Symbol := none, meta := b.meta }
        (pkgWriteKeys importPath (getPkgVersion rt importPath version)
          b.actualVersion)).1 := by
    rw [hrun]
    rfl
  have hread : ∀ k, k ∈ pkgWriteKeys importPath
      (getPkgVersion rt importPath version) b.actualVersion → k ≠ "" →
      (getOrLoadPkg rt persistent filePath save (.ok b) c importPath
        version).2 k
        = some { Package := some b.pkgDoc, Symbol := none, meta := b.meta } := by
    intro k hk hne
    rw [hsnd, setCacheEntry_fst]
    exact foldl_cacheSet_mem _ _ c k hk hne
  have hkeymem : getCacheKey importPath (getPkgVersion rt importPath version) ""
      ∈ pkgWriteKeys importPath (getPkgVersion rt importPath version)
        b.actualVersion := by
    unfold pkgWriteKeys
    have hm : getCacheKey importPath (getPkgVersion rt importPath version) ""
        ∈ uniqKeys (getCacheKey importPath
            (getPkgVersion rt importPath version) "" ::
          getCacheKey importPath "" "" :: []) := by
      rcases uniqKeys_spec (getCacheKey importPath
          (getPkgVersion rt importPath version) "" ::
        getCacheKey importPath "" "" :: []) with ⟨_, _, hmem⟩
      exact (hmem _).mpr ⟨List.mem_cons_self _ _, getCacheKey_ne_empty _ _ _⟩
    by_cases ha : b.actualVersion ≠ ""
    · rw [if_pos ha]
      exact List.mem_append_left _ hm
    · rw [if_neg ha]
      exact hm
  have hagnmem : getCacheKey importPath "" ""
      ∈ pkgWriteKeys importPath (getPkgVersion rt importPath version)
        b.actualVersion := by
    unfold pkgWriteKeys
    have hm : getCacheKey importPath "" ""
        ∈ uniqKeys (getCacheKey importPath
            (getPkgVersion rt importPath version) "" ::
          getCacheKey importPath "" "" :: []) := by
      rcases uniqKeys_spec (getCacheKey importPath
          (getPkgVersion rt importPath version) "" ::
        getCacheKey importPath "" "" :: []) with ⟨_, _, hmem⟩
      exact (hmem _).mpr ⟨List.mem_cons_of_mem _ (List.mem_cons_self _ _),
        getCacheKey_ne_empty _ _ _⟩
    by_cases ha : b.actualVersion ≠ ""
    · rw [if_pos ha]
      exact List.mem_append_left _ hm
    · rw [if_neg ha]
      exact hm
  refine ⟨hsnd, ?_, ?_, ?_, ?_, ?_⟩
  · exact hread _ hkeymem (getCacheKey_ne_empty _ _ _)
  · exact hread _ hagnmem (getCacheKey_ne_empty _ _ _)
  · intro ha
    refine hread _ ?_ (getCacheKey_ne_empty _ _ _)
    unfold pkgWriteKeys
    rw [if_pos ha]
    exact List.mem_append_right _ (List.mem_cons_self _ _)
  · exact uniqKeys_spec
  · intro k ks
    exact uniqKeys_cons k ks

/-- Witness for C2 (amended): the concrete remote request with the
sample build outcome — reads under all three fingerprints after the
miss return the written entry. -/
theorem cache_write_aliases_witness :
    ((getOrLoadPkg "go1.25.0" false "" SaveOutcome.ok (.ok sampleBuildOut)
        emptyCache "example.com/m" "v1").2
      (getCacheKey "example.com/m"
        (getPkgVersion "go1.25.0" "example.com/m" "v1") "")
      = some sampleWrittenEntry) ∧
    ((getOrLoadPkg "go1.25.0" false "" SaveOutcome.ok (.ok sampleBuildOut)
        emptyCache "example.com/m" "v1").2 (getCacheKey "example.com/m" "" "")
      = some sampleWrittenEntry) ∧
    ((getOrLoadPkg "go1.25.0" false "" SaveOutcome.ok (.ok sampleBuildOut)
        emptyCache "example.com/m" "v1").2 (getCacheKey "example.com/m" "v1" "")
      = some sampleWrittenEntry) := by
  have h := cache_write_aliases "go1.25.0" false "" SaveOutcome.ok
    sampleBuildOut emptyCache "example.com/m" "v1" rfl
  exact ⟨h.2.1, h.2.2.1, h.2.2.2.1 (by decide)⟩

/-- C8 counterexample: an instance with empty `DocHTML` and a present
parsed doc re-runs the renderer on EVERY call — two successive calls
on the same instance perform two renderings, refuting the at-most-once
memoization (the value receiver discards the cached write). -/
theorem symbolDocHTML_not_memoized_counterexample :
    (symbolDocHTMLTwice sampleRender sampleLazySymDoc).2 = 2 ∧
    ¬ ((symbolDocHTMLTwice sampleRender sampleLazySymDoc).2 ≤ 1) := by
  refine ⟨by decide, by decide⟩

/-- C8 (amended): `HTML()` is pure and idempotent — two successive
calls on the same instance return byte-identical output, and the
caller-visible instance never changes (value receiver) — but it is
NOT memoized: when `DocHTML` is non-empty (the eagerly computed HTML)
no rendering happens, while an instance with empty `DocHTML` and a
present parsed doc re-renders on every call. -/
theorem symbolDocHTML_pure_idempotent (render : CommentDoc → String)
    (s : SymbolDoc) :
    ((symbolDocHTMLTwice render s).1.1 = (symbolDocHTMLTwice render s).1.2) ∧
    ((symbolDocHTMLCall render s).2.1 = s) ∧
    (s.DocHTML ≠ "" → (symbolDocHTMLTwice render s).2 = 0) ∧
    (s.DocHTML = "" → s.docParsed.isSome = true →
      (symbolDocHTMLTwice render s).2 = 2) := by
  refine ⟨?_, ?_, ?_, ?_⟩
  · unfold symbolDocHTMLTwice symbolDocHTMLCall
    by_cases h : s.DocHTML = ""
    · rw [if_pos h]
      cases hp : s.docParsed <;> simp [h, hp]
    · rw [if_neg h]
      simp [h]
  · unfold symbolDocHTMLCall
    by_cases h : s.DocHTML = ""
    · rw [if_pos h]
      cases hp : s.docParsed <;> rfl
    · rw [if_neg h]
  · intro h
    unfold symbolDocHTMLTwice symbolDocHTMLCall
    rw [if_neg h]
    simp [if_neg h]
  · intro h hp
    rcases Option.isSome_iff_exists.mp hp with ⟨d, hd⟩
    unfold symbolDocHTMLTwice symbolDocHTMLCall
    rw [if_pos h, hd]
    simp [if_pos h, hd]

/-- Witness for C8 (amended): an instance with eagerly computed HTML
renders zero times across two calls and returns identical output; the
lazy-state instance returns identical output on both calls as well. -/
theorem symbolDocHTML_pure_idempotent_witness :
    ((symbolDocHTMLTwice sampleRender
      { sampleLazySymDoc with DocHTML := "<p>x</p>" }).2 = 0) ∧
    ((symbolDocHTMLTwice sampleRender sampleLazySymDoc).1.1
      = (symbolDocHTMLTwice sampleRender sampleLazySymDoc).1.2) ∧
    ((symbolDocHTMLTwice sampleRender sampleLazySymDoc).2 = 2) := by
  have h1 := symbolDocHTML_pure_idempotent sampleRender
    { sampleLazySymDoc with DocHTML := "<p>x</p>" }
  have h2 := symbolDocHTML_pure_idempotent sampleRender sampleLazySymDoc
  exact ⟨h1.2.2.1 (by decide), h2.1, h2.2.2.2 (by decide) (by decide)⟩

/-- C7: in the symbol index, the first registration under a
qualified name wins: the built map stores, for every non-empty key,
the doc of the FIRST registration under that key, and an `add` on an
already-present key leaves the map unchanged; moreover the merged
method list of a type consists of the directly declared methods plus
only those promoted interface methods whose names do not collide with
a directly declared one (direct declarations take precedence). -/
theorem symbol_index_first_registered_wins :
    (∀ (regs : List (String × SymbolDoc)) (k : String), k ≠ "" →
      List.lookup k (regFold regs)
        = (regs.find? (fun r => r.1 = k)).map Prod.snd) ∧
    (∀ (m : SymMap) (k : String) (d : SymbolDoc),
      (List.lookup k m).isSome = true → addSym m k d = m) ∧
    (∀ t : DocTypeSrc,
      (toTypeDoc t).Methods.Perm
        (directMethods t ++
          filterDedup t.Promoted ((directMethods t).map MethodDoc.Name))) ∧
    (∀ (t : DocTypeSrc) (x : MethodDoc),
      x ∈ filterDedup t.Promoted ((directMethods t).map MethodDoc.Name) →
      x ∈ t.Promoted ∧ x.Name ∉ (directMethods t).map MethodDoc.Name) := by
  refine ⟨?_, ?_, ?_, ?_⟩
  · intro regs k hk
    have h := lookup_addSym_foldl regs [] k hk
    unfold regFold
    rw [h]
    simp
  · intro m k d hsome
    unfold addSym
    by_cases hk : k = ""
    · rw [if_pos hk]
    · rw [if_neg hk, if_pos hsome]
  · intro t
    have heq : mergePromoted (directMethods t) t.Promoted
        = directMethods t ++
          filterDedup t.Promoted ((directMethods t).map MethodDoc.Name) :=
      mergePromoted_eq _ _
    rw [show (toTypeDoc t).Methods
      = sortMethodDocs (mergePromoted (directMethods t) t.Promoted) from rfl,
      heq]
    exact List.mergeSort_perm _ _
  · intro t x hx
    exact filterDedup_mem _ _ x hx

/-- Witness for C7: two registrations under the same key "T.M" — the
lookup returns the first doc, not the second. -/
theorem symbol_index_first_registered_wins_witness :
    List.lookup "T.M"
      (regFold (("T.M", sampleSymDoc) :: ("T.M", sampleSymDocB) :: []))
      = some sampleSymDoc ∧
    sampleSymDoc ≠ sampleSymDocB := by
  have h := symbol_index_first_registered_wins.1
    (("T.M", sampleSymDoc) :: ("T.M", sampleSymDocB) :: []) "T.M" (by decide)
  refine ⟨?_, by decide⟩
  rw [h]
  decide

/-- The sort `sortValueDocs` orders by the comma-joined name list. -/
theorem sortValueDocs_sorted (vs : List ValueDoc) :
    List.Pairwise (fun a b => strJoin "," a.Names ≤ strJoin "," b.Names)
      (sortValueDocs vs) :=
  sorted_mergeSort_key (fun v => strJoin "," v.Names) vs

/-- The sort `sortValueDocs` permutes its input. -/
theorem sortValueDocs_perm (vs : List ValueDoc) :
    (sortValueDocs vs).Perm vs :=
  List.mergeSort_perm vs _

/-- The sort `sortFuncDocs` orders by name. -/
theorem sortFuncDocs_sorted (fs : List FuncDoc) :
    List.Pairwise (fun a b => a.Name ≤ b.Name) (sortFuncDocs fs) :=
  sorted_mergeSort_key FuncDoc.Name fs

/-- The sort `sortFuncDocs` permutes its input. -/
theorem sortFuncDocs_perm (fs : List FuncDoc) :
    (sortFuncDocs fs).Perm fs :=
  List.mergeSort_perm fs _

/-- The sort `sortTypeDocs` orders by name. -/
theorem sortTypeDocs_sorted (ts : List TypeDoc) :
    List.Pairwise (fun a b => a.Name ≤ b.Name) (sortTypeDocs ts) :=
  sorted_mergeSort_key TypeDoc.Name ts

/-- The sort `sortTypeDocs` permutes its input. -/
theorem sortTypeDocs_perm (ts : List TypeDoc) :
    (sortTypeDocs ts).Perm ts :=
  List.mergeSort_perm ts _

/-- C6: every extracted `PackageDoc` has its Consts and Vars sorted
by the comma-joined name list and its Funcs and Types sorted by name;
consequently, whenever the front-end delivers the same declarations
in any order (permuted const, var, function and type lists) and — as
Go guarantees for one package — the sort keys are duplicate-free,
the two extractions yield equal results. -/
theorem toPkgDoc_sorted_deterministic (parse : String → CommentDoc)
    (render : CommentDoc → String) (p : DocPackageSrc) (importPath : String) :
    List.Pairwise (fun a b => strJoin "," a.Names ≤ strJoin "," b.Names)
      (toPkgDoc parse render p importPath).Consts ∧
    List.Pairwise (fun a b => strJoin "," a.Names ≤ strJoin "," b.Names)
      (toPkgDoc parse render p importPath).Vars ∧
    List.Pairwise (fun a b => a.Name ≤ b.Name)
      (toPkgDoc parse render p importPath).Funcs ∧
    List.Pairwise (fun a b => a.Name ≤ b.Name)
      (toPkgDoc parse render p importPath).Types ∧
    (∀ q : DocPackageSrc,
      q.Name = p.Name → q.Doc = p.Doc → q.Synopsis = p.Synopsis →
      q.Consts.Perm p.Consts → q.Vars.Perm p.Vars → q.Funcs.Perm p.Funcs →
      q.Types.Perm p.Types →
      ((collectedConsts p).map (fun v => strJoin "," v.Names)).Nodup →
      ((collectedVars p).map (fun v => strJoin "," v.Names)).Nodup →
      ((collectedFuncs p).map FuncDoc.Name).Nodup →
      (p.Types.map DocTypeSrc.Name).Nodup →
      toPkgDoc parse render q importPath = toPkgDoc parse render p importPath) := by
  refine ⟨sortValueDocs_sorted _, sortValueDocs_sorted _, sortFuncDocs_sorted _,
    sortTypeDocs_sorted _, ?_⟩
  intro q hn hd hs hc hv hf ht ndc ndv ndf ndt
  have hccperm : (collectedConsts q).Perm (collectedConsts p) := by
    unfold collectedConsts
    exact List.Perm.append (hc.map _) (List.Perm.flatMap_right _ ht)
  have hcvperm : (collectedVars q).Perm (collectedVars p) := by
    unfold collectedVars
    exact List.Perm.append (hv.map _) (List.Perm.flatMap_right _ ht)
  have hcfperm : (collectedFuncs q).Perm (collectedFuncs p) := by
    unfold collectedFuncs
    exact List.Perm.append (hf.map _) (List.Perm.flatMap_right _ ht)
  have hcq : sortValueDocs (collectedConsts q)
      = sortValueDocs (collectedConsts p) := by
    apply sorted_key_nodup_perm_eq (fun v => strJoin "," v.Names)
    · exact ((sortValueDocs_perm _).trans hccperm).trans
        (sortValueDocs_perm _).symm
    · exact sortValueDocs_sorted _
    · exact sortValueDocs_sorted _
    · have : ((sortValueDocs (collectedConsts q)).map
          (fun v => strJoin "," v.Names)).Perm
          ((collectedConsts p).map (fun v => strJoin "," v.Names)) :=
        List.Perm.map _ ((sortValueDocs_perm _).trans hccperm)
      exact (this.nodup_iff).mpr ndc
  have hvq : sortValueDocs (collectedVars q)
      = sortValueDocs (collectedVars p) := by
    apply sorted_key_nodup_perm_eq (fun v => strJoin "," v.Names)
    · exact ((sortValueDocs_perm _).trans hcvperm).trans
        (sortValueDocs_perm _).symm
    · exact sortValueDocs_sorted _
    · exact sortValueDocs_sorted _
    · have : ((sortValueDocs (collectedVars q)).map
          (fun v => strJoin "," v.Names)).Perm
          ((collectedVars p).map (fun v => strJoin "," v.Names)) :=
        List.Perm.map _ ((sortValueDocs_perm _).trans hcvperm)
      exact (this.nodup_iff).mpr ndv
  have hfq : sortFuncDocs (collectedFuncs q)
      = sortFuncDocs (collectedFuncs p) := by
    apply sorted_key_nodup_perm_eq FuncDoc.Name
    · exact ((sortFuncDocs_perm _).trans hcfperm).trans
        (sortFuncDocs_perm _).symm
    · exact sortFuncDocs_sorted _
    · exact sortFuncDocs_sorted _
    · have : ((sortFuncDocs (collectedFuncs q)).map FuncDoc.Name).Perm
          ((collectedFuncs p).map FuncDoc.Name) :=
        List.Perm.map _ ((sortFuncDocs_perm _).trans hcfperm)
      exact (this.nodup_iff).mpr ndf
  have hndtp : ((p.Types.map toTypeDoc).map TypeDoc.Name).Nodup := by
    rw [List.map_map]
    exact ndt
  have htq : sortTypeDocs (q.Types.map toTypeDoc)
      = sortTypeDocs (p.Types.map toTypeDoc) := by
    apply sorted_key_nodup_perm_eq TypeDoc.Name
    · exact ((sortTypeDocs_perm _).trans (ht.map _)).trans
        (sortTypeDocs_perm _).symm
    · exact sortTypeDocs_sorted _
    · exact sortTypeDocs_sorted _
    · have : ((sortTypeDocs (q.Types.map toTypeDoc)).map TypeDoc.Name).Perm
          ((p.Types.map toTypeDoc).map TypeDoc.Name) :=
        List.Perm.map _ ((sortTypeDocs_perm _).trans (ht.map _))
      exact (this.nodup_iff).mpr hndtp
  show ({ ImportPath := importPath, Name := q.Name, Synopsis := q.Synopsis,
          DocText := q.Doc,
          DocHTML := if q.Doc ≠ "" then render (parse q.Doc) else "",
          Consts := sortValueDocs (collectedConsts q),
          Vars := sortValueDocs (collectedVars q),
          Funcs := sortFuncDocs (collectedFuncs q),
          Types := sortTypeDocs (q.Types.map toTypeDoc) } : PackageDoc)
    = ({ ImportPath := importPath, Name := p.Name, Synopsis := p.Synopsis,
         DocText := p.Doc,
         DocHTML := if p.Doc ≠ "" then render (parse p.Doc) else "",
         Consts := sortValueDocs (collectedConsts p),
         Vars := sortValueDocs (collectedVars p),
         Funcs := sortFuncDocs (collectedFuncs p),
         Types := sortTypeDocs (p.Types.map toTypeDoc) } : PackageDoc)
  rw [hn, hd, hs, hcq, hvq, hfq, htq]

/-- Witness for C6: the same declarations delivered in opposite
iteration orders extract to equal `PackageDoc` values. -/
theorem toPkgDoc_sorted_deterministic_witness :
    toPkgDoc CommentDoc.mk (fun d => d.text) sampleDocPkgQ "m"
      = toPkgDoc CommentDoc.mk (fun d => d.text) sampleDocPkgP "m" :=
  (toPkgDoc_sorted_deterministic CommentDoc.mk (fun d => d.text)
      sampleDocPkgP "m").2.2.2.2 sampleDocPkgQ rfl rfl rfl
    (by decide) (by decide) (by decide) (by decide)
    (by decide) (by decide) (by decide) (by decide)

end Godoc
